import Mathlib

/-!
Verification development for the hytopia-map-compression codec core
(src/core/MapCompressor.ts, src/core/MapDecompressor.ts, the DeltaEncoder
module, src/encoders/VarintEncoder.ts, src/encoders/BrotliWrapper.ts).

Modelling conventions:
* JavaScript numbers that flow through the codec are integers, NaN,
  plus/minus Infinity or undefined.  Integer values are modelled as
  unbounded `Int` (doubles are exact on every value the codec touches);
  the special values get their own constructors in `JNum`.
* JavaScript 32-bit operators (`<<`, `>>`, `>>>`, `&`, `|`, `^`) coerce
  through ToInt32/ToUint32.  They are modelled on `Int` via `toUint32`
  (reduction mod 2^32) and `ofUint32` (signed reinterpretation).
* `Buffer`s / byte arrays are `List Nat`; an out-of-range read of a
  JavaScript array or Buffer yields `undefined`, which every decoder loop
  immediately masks with `& 0x7F` / `& 0x80` (giving 0), which is why the
  byte-reading primitives use `List.getD _ _ 0`.  An out-of-range indexed
  *write* on a Buffer is silently ignored, matching `List.set`.
  `Buffer.writeUInt32LE` bounds-checks and raises a RangeError.
* JavaScript strings are modelled as `List Char`.  `Number(s)` is
  modelled for integer-format strings (optional minus sign, digits, the
  empty string parsing to 0); every other string is modelled as NaN.
* Objects used as string-keyed maps are association lists in insertion
  order; `obj[k] = v` updates in place or appends (`objSet`).
-/

namespace MapCodec

namespace JsNum

/-- ECMAScript ToUint32 of an (integral) number. -/
def toUint32 (v : Int) : Nat := (v % 4294967296).toNat

/-- Reinterpret a 32-bit pattern as a signed 32-bit integer. -/

def ofUint32 (n : Nat) : Int :=
  if n % 4294967296 < 2147483648 then ((n % 4294967296 : Nat) : Int)
  else ((n % 4294967296 : Nat) : Int) - 4294967296

/-- ECMAScript ToInt32 of an (integral) number. -/

def toInt32 (v : Int) : Int := ofUint32 (toUint32 v)

/-- JavaScript `a << b` (b already reduced mod 32 at call sites). -/

def shl (a : Int) (b : Nat) : Int := ofUint32 (toUint32 a <<< b)

/-- JavaScript arithmetic shift `a >> b`: floor division of ToInt32. -/

def sar (a : Int) (b : Nat) : Int := toInt32 a / ((2 : Int) ^ b)

/-- JavaScript unsigned shift `a >>> b` (result is non-negative). -/

def shrU (a : Int) (b : Nat) : Int := ((toUint32 a >>> b : Nat) : Int)

/-- JavaScript `a ^ b` on 32 bits. -/

def xor32 (a b : Int) : Int := ofUint32 (toUint32 a ^^^ toUint32 b)

/-- JavaScript `a & b` on 32 bits. -/

def and32 (a b : Int) : Int := ofUint32 (toUint32 a &&& toUint32 b)

/-- JavaScript `a | b` on 32 bits. -/

def or32 (a b : Int) : Int := ofUint32 (toUint32 a ||| toUint32 b)

end JsNum

namespace VarintEncoder

/-- `encodeZigzag(value) = (value << 1) ^ (value >> 31)`. -/
def encodeZigzag (value : Int) : Int :=
  JsNum.xor32 (JsNum.shl value 1) (JsNum.sar value 31)

/-- `decodeZigzag(value) = (value >>> 1) ^ -(value & 1)`. -/

def decodeZigzag (value : Int) : Int :=
  JsNum.xor32 (JsNum.shrU value 1) (-(JsNum.and32 value 1))

end VarintEncoder

def varintChunk (n : Nat) : List Nat :=
  if h : 127 < n then (n % 128 + 128) :: varintChunk (n / 128) else [n]
decreasing_by exact Nat.div_lt_self (by omega) (by omega)

def writeBytesAt (buf : List Nat) (off : Nat) : List Nat → List Nat
  | [] => buf
  | b :: rest => writeBytesAt (buf.set off b) (off + 1) rest

namespace VarintEncoder

/-- `writeVarint` loop (src/encoders/VarintEncoder.ts, lines 23-31):
`while ((value & ~0x7F) !== 0) { buffer[offset++] = (value & 0x7F) | 0x80; value >>>= 7; }
buffer[offset++] = value & 0x7F;`
The loop state is the unsigned 32-bit pattern of `value`
(`~0x7F` is the int32 mask 0xFFFFFF80 = 4294967168). -/
def writeVarintLoop (buffer : List Nat) (offset : Nat) (n : Nat) : List Nat × Nat :=
  if h : n &&& 4294967168 ≠ 0 then
    writeVarintLoop (buffer.set offset ((n &&& 127) ||| 128)) (offset + 1) (n >>> 7)
  else (buffer.set offset (n &&& 127), offset + 1)
termination_by n
decreasing_by
  have hn : n ≠ 0 := by
    rintro rfl
    exact h (by decide)
  rw [Nat.shiftRight_eq_div_pow]
  exact Nat.div_lt_self (by omega) (by norm_num)

/-- `VarintEncoder.writeVarint(buffer, offset, value)`; returns the updated
buffer together with the new offset. -/

def writeVarint (buffer : List Nat) (offset : Nat) (value : Int) : List Nat × Nat :=
  writeVarintLoop buffer offset (JsNum.toUint32 value)

/-- Shared do-while loop of `readVarint` / `readVarintFast`:
`value |= (byte & 0x7F) << shift`, continue while `byte & 0x80`.
Returns the accumulated value and the offset one past the last byte read.
An out-of-range Buffer read yields undefined, which the `&` masks coerce
to 0, hence `List.getD _ _ 0`. -/

def readVarintLoop (buffer : List Nat) (offset : Nat) (value : Int) (shift : Nat) :
    Int × Nat :=
  if h : buffer.getD offset 0 &&& 128 ≠ 0 then
    readVarintLoop buffer (offset + 1)
      (JsNum.or32 value (JsNum.shl ((buffer.getD offset 0 &&& 127 : Nat) : Int) shift))
      (shift + 7)
  else
    (JsNum.or32 value (JsNum.shl ((buffer.getD offset 0 &&& 127 : Nat) : Int) shift),
      offset + 1)
termination_by buffer.length - offset
decreasing_by
  have hlt : offset < buffer.length := by
    by_contra hge
    have h0 : buffer.getD offset 0 = 0 := List.getD_eq_default buffer 0 (by omega)
    rw [h0] at h
    exact h (by decide)
  omega

/-- `VarintEncoder.readVarint(buffer, offset)` returns `{value, bytesRead}`. -/

def readVarint (buffer : List Nat) (offset : Nat) : Int × Nat :=
  ((readVarintLoop buffer offset 0 0).1, (readVarintLoop buffer offset 0 0).2 - offset)

/-- `VarintEncoder.readVarintFast(buffer, offset)` returns `{value, offset}`. -/

def readVarintFast (buffer : List Nat) (offset : Nat) : Int × Nat :=
  readVarintLoop buffer offset 0 0

end VarintEncoder

namespace MapCompressor

/-- Loop of MapCompressor.writeVarint (src/core/MapCompressor.ts, lines 137-143):
`while (current > 0x7f) { buffer[offset++] = (current & 0x7f) | 0x80; current >>>= 7; }
buffer[offset++] = current;`
The state `current` is a raw JavaScript number (signed); indexed Buffer
assignment coerces the stored value to a byte (mod 256). -/
def writeVarintLoop (buffer : List Nat) (offset : Nat) (current : Int) : List Nat × Nat :=
  if h : 127 < current then
    writeVarintLoop
      (buffer.set offset ((JsNum.or32 (JsNum.and32 current 127) 128 % 256).toNat))
      (offset + 1) (JsNum.shrU current 7)
  else (buffer.set offset ((current % 256).toNat), offset + 1)
termination_by current.toNat
decreasing_by
  unfold JsNum.shrU JsNum.toUint32
  have h7 : (2 : Nat) ^ 7 = 128 := by norm_num
  rw [Nat.shiftRight_eq_div_pow, h7]
  omega

end MapCompressor

inductive JNum where
  | num (n : Int)
  | nan
  | inf
  | ninf
  | undef
deriving DecidableEq, Repr

namespace JNum

/-- ToNumber: undefined converts to NaN in arithmetic contexts. -/
def toNumber : JNum → JNum
  | undef => nan
  | j => j

/-- The integral basis handed to ToInt32/ToUint32: NaN, the infinities
and undefined all convert to 0. -/

def raw : JNum → Int
  | num n => n
  | _ => 0

/-- JavaScript truthiness of a number-or-undefined value. -/

def truthy : JNum → Bool
  | num n => n ≠ 0
  | nan => false
  | undef => false
  | inf => true
  | ninf => true

/-- `a || b`. -/

def orElse (a b : JNum) : JNum := if a.truthy then a else b

/-- Numeric `a + b`. -/

def add (a b : JNum) : JNum :=
  match a.toNumber, b.toNumber with
  | num x, num y => num (x + y)
  | nan, _ => nan
  | _, nan => nan
  | undef, _ => nan
  | _, undef => nan
  | inf, ninf => nan
  | ninf, inf => nan
  | inf, _ => inf
  | _, inf => inf
  | ninf, _ => ninf
  | _, ninf => ninf

/-- Numeric `a - b`. -/

def sub (a b : JNum) : JNum :=
  match a.toNumber, b.toNumber with
  | num x, num y => num (x - y)
  | nan, _ => nan
  | _, nan => nan
  | undef, _ => nan
  | _, undef => nan
  | inf, inf => nan
  | inf, _ => inf
  | _, inf => ninf
  | ninf, ninf => nan
  | ninf, _ => ninf
  | _, ninf => inf

/-- `Math.min(a, b)`. -/

def min2 (a b : JNum) : JNum :=
  match a.toNumber, b.toNumber with
  | nan, _ => nan
  | _, nan => nan
  | undef, _ => nan
  | _, undef => nan
  | num x, num y => num (min x y)
  | ninf, _ => ninf
  | _, ninf => ninf
  | inf, y => y
  | x, inf => x

/-- `Math.max(a, b)`. -/

def max2 (a b : JNum) : JNum :=
  match a.toNumber, b.toNumber with
  | nan, _ => nan
  | _, nan => nan
  | undef, _ => nan
  | _, undef => nan
  | num x, num y => num (max x y)
  | inf, _ => inf
  | _, inf => inf
  | ninf, y => y
  | x, ninf => x

/-- Strict equality `===` on numbers-or-undefined (NaN === NaN is false). -/

def strictEq : JNum → JNum → Bool
  | num x, num y => x = y
  | inf, inf => true
  | ninf, ninf => true
  | undef, undef => true
  | _, _ => false

end JNum

/-! ### JavaScript strings (as character lists), rendering and parsing -/

def digitToChar : Nat → Char
  | 0 => '0'
  | 1 => '1'
  | 2 => '2'
  | 3 => '3'
  | 4 => '4'
  | 5 => '5'
  | 6 => '6'
  | 7 => '7'
  | 8 => '8'
  | 9 => '9'
  | _ => '?'

def charToDigit (c : Char) : Option Nat :=
  if '0' ≤ c ∧ c ≤ '9' then some (c.toNat - 48) else Option.none

def natDigits (m : Nat) : List Char :=
  if h : m < 10 then [digitToChar m]
  else natDigits (m / 10) ++ [digitToChar (m % 10)]
decreasing_by exact Nat.div_lt_self (by omega) (by omega)

/-- Decimal rendering of an integral JavaScript number. -/

def renderInt (n : Int) : List Char :=
  if n < 0 then '-' :: natDigits (-n).toNat else natDigits n.toNat

/-- Template-literal rendering of a JNum. -/

def render : JNum → List Char
  | .num n => renderInt n
  | .nan => ['N', 'a', 'N']
  | .inf => ['I', 'n', 'f', 'i', 'n', 'i', 't', 'y']
  | .ninf => '-' :: ['I', 'n', 'f', 'i', 'n', 'i', 't', 'y']
  | .undef => ['u', 'n', 'd', 'e', 'f', 'i', 'n', 'e', 'd']

/-- The coordinate-key template literal (x, comma, y, comma, z). -/

def renderKey (x y z : JNum) : List Char :=
  render x ++ ',' :: render y ++ ',' :: render z

/-- `String.prototype.split(',')`. -/

def splitComma : List Char → List (List Char)
  | [] => [[]]
  | c :: rest =>
    if c = ',' then [] :: splitComma rest
    else
      match splitComma rest with
      | [] => [[c]]
      | p :: ps => (c :: p) :: ps

def parseDigitsAux : List Char → Nat → Option Nat
  | [], acc => some acc
  | c :: rest, acc =>
    match charToDigit c with
    | some d => parseDigitsAux rest (acc * 10 + d)
    | _ => Option.none

/-- `Number(s)` for the string shapes the codec meets: the empty string
converts to 0; an optional minus sign followed by digits converts to the
signed integer; every other string is modelled as NaN (the codec only
sees integral keys or non-numeric garbage). -/

def parseNum (s : List Char) : JNum :=
  match s with
  | [] => .num 0
  | '-' :: rest =>
    match rest, parseDigitsAux rest 0 with
    | [], _ => .nan
    | _, some m => .num (-(m : Int))
    | _, _ => .nan
  | _ =>
    match parseDigitsAux s 0 with
    | some m => .num m
    | _ => .nan

/-- `const [x, y, z] = key.split(',').map(Number)`: components past the
split result are undefined. -/

def parseKey (s : List Char) : JNum × JNum × JNum :=
  let parts := (splitComma s).map parseNum
  (parts.getD 0 .undef, parts.getD 1 .undef, parts.getD 2 .undef)

/-! ### String-keyed objects as insertion-ordered association lists -/

/-- `obj[k] = v`: update in place if the key exists, else append. -/

def objSet {α : Type} (l : List (List Char × α)) (k : List Char) (v : α) :
    List (List Char × α) :=
  match l with
  | [] => [(k, v)]
  | (k0, v0) :: rest => if k0 = k then (k0, v) :: rest else (k0, v0) :: objSet rest k v

/-- Build an object by a sequence of indexed assignments. -/

def objInsertAll {α : Type} (l : List (List Char × α))
    (entries : List (List Char × α)) : List (List Char × α) :=
  entries.foldl (fun acc e => objSet acc e.1 e.2) l

/-! ### Shared artifact / option structures -/

structure JBounds where
  minX : JNum
  minY : JNum
  minZ : JNum
  maxX : JNum
  maxY : JNum
  maxZ : JNum
deriving DecidableEq, Repr

def zeroJBounds : JBounds :=
  ⟨.num 0, .num 0, .num 0, .num 0, .num 0, .num 0⟩

inductive Alg where
  | brotli
  | gzip
  | none
deriving DecidableEq, Repr

/-- The options object stored in an artifact. -/

structure MapOptions where
  useDelta : Bool
  useVarint : Bool
deriving DecidableEq, Repr

/-- `options.compression` after the constructor merge with its defaults. -/

structure CompressionOpts where
  algorithm : Alg
  level : Int
  useDelta : Bool
  useVarint : Bool
deriving DecidableEq

/-- src/types.ts MapData (blockTypes / entities are opaque pass-through
values; only their presence/truthiness is observable to the codec). -/

structure MapData where
  blocks : List (List Char × Int)
  blockTypesPresent : Bool
  entitiesPresent : Bool
deriving DecidableEq

/-- src/types.ts CompressionResult (timing/size metadata omitted:
wall-clock time and JSON.stringify sizes are not observable here). -/

structure CompressionResult where
  data : List Char
  blockTypesPresent : Bool
  bounds : JBounds
  version : List Char
  blockCount : Nat
deriving DecidableEq

/-- src/types.ts CompressedMapData; fields that decompress checks or
reads are optional so that absent fields can be expressed. -/

structure CompressedMapData where
  version : Option (List Char)
  algorithm : Option Alg
  data : Option (List Char)
  blockTypes : Bool
  bounds : Option JBounds
  entities : Bool
  options : Option MapOptions
deriving DecidableEq

structure DecompressionResult where
  blocks : List (List Char × JNum)
  blockTypes : Bool
  entities : Bool
  blockCount : Nat
deriving DecidableEq

inductive JsErr where
  | rangeErr
  | invalidFormat
deriving DecidableEq, Repr

/-- External collaborators: the zlib entropy backends and Buffer's
base64 codec.  They are parameters of the model; theorems that need
their round-trip contracts take them as hypotheses. -/

structure ExternalBackends where
  brotliCompressFn : Int → Nat → List Nat → List Nat
  brotliDecompressFn : List Nat → List Nat
  gzipCompressFn : Int → List Nat → List Nat
  gzipDecompressFn : List Nat → List Nat
  toBase64Fn : List Nat → List Char
  fromBase64Fn : List Char → List Nat

namespace BrotliWrapper

/-- BrotliWrapper.compress (the zlib calls are external). -/
def compress (ext : ExternalBackends) (data : List Nat) (algorithm : Alg)
    (level : Int) : List Nat :=
  match algorithm with
  | .none => data
  | .gzip => ext.gzipCompressFn level data
  | .brotli => ext.brotliCompressFn level data.length data

/-- BrotliWrapper.decompress. -/

def decompress (ext : ExternalBackends) (data : List Nat) (algorithm : Alg) :
    List Nat :=
  match algorithm with
  | .none => data
  | .gzip => ext.gzipDecompressFn data
  | .brotli => ext.brotliDecompressFn data

def compressToBase64 (ext : ExternalBackends) (data : List Nat) (algorithm : Alg)
    (level : Int) : List Char :=
  ext.toBase64Fn (compress ext data algorithm level)

def decompressFromBase64 (ext : ExternalBackends) (base64 : List Char)
    (algorithm : Alg) : List Nat :=
  decompress ext (ext.fromBase64Fn base64) algorithm

end BrotliWrapper

namespace DeltaEncoder

/-! ### DeltaEncoder (src/core/MapCompression.ts, lines 626-823) -/


structure PBlock where
  x : JNum
  y : JNum
  z : JNum
  id : Int
deriving DecidableEq, Repr

/-- Comparator result classified for sorting: `a` stays no later than `b`
when the comparator value is not a positive number (NaN and undefined
compare as ties). -/

def cmpNonPos : JNum → Bool
  | .num n => n ≤ 0
  | .nan => true
  | .undef => true
  | .inf => false
  | .ninf => true

/-- `if (a.y !== b.y) return a.y - b.y; if (a.x !== b.x) return a.x - b.x;
return a.z - b.z;` -/

def sortLe (a b : PBlock) : Bool :=
  if (JNum.strictEq a.y b.y) = false then cmpNonPos (JNum.sub a.y b.y)
  else if (JNum.strictEq a.x b.x) = false then cmpNonPos (JNum.sub a.x b.x)
  else cmpNonPos (JNum.sub a.z b.z)

/-- DeltaEncoder.sortBlocksSpatially (lines 708-729). -/

def sortBlocksSpatially (blocks : List (List Char × Int)) : List PBlock :=
  let parsed := blocks.map (fun kv =>
    let t := parseKey kv.1
    PBlock.mk t.1 t.2.1 t.2.2 kv.2)
  parsed.mergeSort sortLe

/-- DeltaEncoder.calculateBounds (lines 734-758): all-zero bounds for an
empty block list, else Math.min/Math.max folds seeded from the first
block. -/

def calculateBounds (blocks : List PBlock) : JBounds :=
  match blocks with
  | [] => ⟨.num 0, .num 0, .num 0, .num 0, .num 0, .num 0⟩
  | b0 :: _ =>
    blocks.foldl (fun acc b =>
      ⟨JNum.min2 acc.minX b.x, JNum.min2 acc.minY b.y, JNum.min2 acc.minZ b.z,
        JNum.max2 acc.maxX b.x, JNum.max2 acc.maxY b.y, JNum.max2 acc.maxZ b.z⟩)
      ⟨b0.x, b0.y, b0.z, b0.x, b0.y, b0.z⟩

/-- The delta emission walk of encodePositions (lines 654-671). -/

def encodeDeltas (lx ly lz : JNum) : List PBlock → List JNum × List Int
  | [] => ([], [])
  | b :: rest =>
    let r := encodeDeltas b.x b.y b.z rest
    (JNum.sub b.x lx :: JNum.sub b.y ly :: JNum.sub b.z lz :: r.1, b.id :: r.2)

/-- DeltaEncoder.encodePositions (lines 631-674). -/

def encodePositions (blocks : List (List Char × Int)) :
    List JNum × List Int × JBounds :=
  let sortedBlocks := sortBlocksSpatially blocks
  let bounds := calculateBounds sortedBlocks
  let shiftedBlocks := sortedBlocks.map (fun b =>
    PBlock.mk (JNum.sub b.x bounds.minX) (JNum.sub b.y bounds.minY)
      (JNum.sub b.z bounds.minZ) b.id)
  let r := encodeDeltas (.num 0) (.num 0) (.num 0) shiftedBlocks
  (r.1, r.2, bounds)

/-- Accumulation walk of decodePositions (lines 686-699); a delta index
past the array yields undefined and poisons the running sums with NaN. -/

def decodePositionsGo (deltas : List JNum) :
    JNum → JNum → JNum → Nat → List JNum → List (List Char × JNum)
  | _, _, _, _, [] => []
  | x, y, z, di, id :: rest =>
    let x2 := JNum.add x (deltas.getD di .undef)
    let y2 := JNum.add y (deltas.getD (di + 1) .undef)
    let z2 := JNum.add z (deltas.getD (di + 2) .undef)
    (renderKey x2 y2 z2, id) :: decodePositionsGo deltas x2 y2 z2 (di + 3) rest

/-- DeltaEncoder.decodePositions (lines 679-702).  The optional bounds
parameter is declared by the source but never read. -/

def decodePositions (deltas : List JNum) (blockIds : List JNum)
    (bounds : Option JBounds) : List (List Char × JNum) :=
  objInsertAll [] (decodePositionsGo deltas (.num 0) (.num 0) (.num 0) 0 blockIds)

/-- Run scan of encodeBlockIds (lines 763-793). -/

def encodeBlockIdsGo : List Int → List Int
  | [] => []
  | x :: rest =>
    let cnt := 1 + (rest.takeWhile (fun y => y = x)).length
    (if 2 < cnt then [-(cnt : Int), x] else List.replicate cnt x) ++
      encodeBlockIdsGo (rest.drop (cnt - 1))
termination_by l => l.length
decreasing_by
  simp only [List.length_drop, List.length_cons]
  omega

/-- DeltaEncoder.encodeBlockIds: runs longer than 2 become a
`(-count, id)` marker; the literal list is kept unless the encoding is
strictly shorter. -/

def encodeBlockIds (blockIds : List Int) : List Int × Bool :=
  let encoded := encodeBlockIdsGo blockIds
  let isRLE := encoded.length < blockIds.length
  (if isRLE then encoded else blockIds, isRLE)

/-- Expansion walk of decodeBlockIds (lines 801-820); a marker as the
last element reads `encoded[i+1]` out of range (undefined). -/

def decodeBlockIdsGo : List Int → List JNum
  | [] => []
  | v :: rest =>
    if v < 0 then
      match rest with
      | id :: rest2 => List.replicate (-v).toNat (JNum.num id) ++ decodeBlockIdsGo rest2
      | [] => List.replicate (-v).toNat JNum.undef
    else JNum.num v :: decodeBlockIdsGo rest

/-- DeltaEncoder.decodeBlockIds (lines 798-823). -/

def decodeBlockIds (encoded : List Int) (isRLE : Bool) : List JNum :=
  if isRLE = false then encoded.map JNum.num else decodeBlockIdsGo encoded

end DeltaEncoder

namespace MapCompressor

/-! ### MapCompressor (src/core/MapCompressor.ts) -/


/-- MapCompressor.calculateBounds (lines 117-132): Math.min/Math.max
folds over the parsed keys, seeded with plus/minus Infinity. -/
def calculateBounds (blocks : List (List Char × Int)) : JBounds :=
  blocks.foldl (fun acc kv =>
    let t := parseKey kv.1
    ⟨JNum.min2 acc.minX t.1, JNum.min2 acc.minY t.2.1, JNum.min2 acc.minZ t.2.2,
      JNum.max2 acc.maxX t.1, JNum.max2 acc.maxY t.2.1, JNum.max2 acc.maxZ t.2.2⟩)
    ⟨.inf, .inf, .inf, .ninf, .ninf, .ninf⟩

/-- One entry of the shifted, sorted block array built by compress. -/

structure SBlock where
  x : JNum
  y : JNum
  z : JNum
  id : Int
deriving DecidableEq, Repr

/-- `.sort((a, b) => a.y - b.y || a.x - b.x || a.z - b.z)`: `a` stays no
later than `b` when the comparator chain yields a non-positive number
(0, NaN and undefined fall through `||` or count as ties). -/

def sortLe (a b : SBlock) : Bool :=
  DeltaEncoder.cmpNonPos
    (JNum.orElse (JNum.orElse (JNum.sub a.y b.y) (JNum.sub a.x b.x))
      (JNum.sub a.z b.z))

/-- MapCompressor.writeVarint (lines 134-146): inline zigzag
`(value << 1) ^ (value >> 31)` followed by the base-128 loop. -/

def writeVarint (value : JNum) (buffer : List Nat) (offset : Nat) :
    List Nat × Nat :=
  writeVarintLoop buffer offset
    (JsNum.xor32 (JsNum.shl value.raw 1) (JsNum.sar value.raw 31))

/-- The per-record encode loop of compress (lines 64-74). -/

def encodeLoop (buffer : List Nat) (offset : Nat) (lx ly lz : JNum) :
    List SBlock → List Nat × Nat
  | [] => (buffer, offset)
  | b :: rest =>
    let r1 := writeVarint (JNum.sub b.x lx) buffer offset
    let r2 := writeVarint (JNum.sub b.y ly) r1.1 r1.2
    let r3 := writeVarint (JNum.sub b.z lz) r2.1 r2.2
    let r4 := writeVarint (JNum.num b.id) r3.1 r3.2
    encodeLoop r4.1 r4.2 b.x b.y b.z rest

/-- Little-endian bytes of `buffer.writeUInt32LE(n, 0)`. -/

def toBytesLE4 (n : Nat) : List Nat :=
  [n % 256, n / 256 % 256, n / 65536 % 256, n / 16777216 % 256]

/-- MapCompressor.compress (lines 30-112).  `Buffer.writeUInt32LE`
bounds-checks: it raises a RangeError when the buffer is shorter than
4 bytes (in particular for the empty map, whose scratch buffer has
`0 * 15` bytes) or when the value exceeds 0xFFFFFFFF.  The scratch
buffer holds `15 * blockCount` bytes; indexed writes beyond it are
silently dropped and `slice(0, offset)` caps at the buffer length,
both matching Node Buffer semantics. -/

def compress (ext : ExternalBackends) (opts : CompressionOpts) (mapData : MapData) :
    Except JsErr CompressionResult :=
  let bounds := calculateBounds mapData.blocks
  let blocks := (mapData.blocks.map (fun kv =>
      let t := parseKey kv.1
      SBlock.mk (JNum.sub t.1 bounds.minX) (JNum.sub t.2.1 bounds.minY)
        (JNum.sub t.2.2 bounds.minZ) kv.2)).mergeSort sortLe
  let buffer := List.replicate (blocks.length * 15) 0
  if blocks.length * 15 < 4 ∨ 4294967296 ≤ blocks.length then .error .rangeErr
  else
    let buffer1 := writeBytesAt buffer 0 (toBytesLE4 blocks.length)
    let r := encodeLoop buffer1 4 (.num 0) (.num 0) (.num 0) blocks
    let encodedData := r.1.take r.2
    .ok { data := BrotliWrapper.compressToBase64 ext encodedData opts.algorithm
            (if opts.level = 0 then 9 else opts.level),
          blockTypesPresent := true,
          bounds := bounds,
          version := ['1', '.', '0', '.', '0'],
          blockCount := mapData.blocks.length }

/-- MapCompressor.createCompressedMap (lines 151-166).  `entities` is
`mapData.entities || \x7b}`, which is always truthy. -/

def createCompressedMap (opts : CompressionOpts) (result : CompressionResult) :
    CompressedMapData :=
  { version := some result.version,
    algorithm := some opts.algorithm,
    data := some result.data,
    blockTypes := result.blockTypesPresent,
    bounds := some result.bounds,
    entities := true,
    options := some ⟨opts.useDelta, opts.useVarint⟩ }

end MapCompressor

namespace MapDecompressor

/-! ### MapDecompressor (src/core/MapDecompressor.ts) -/


/-- `buffer.readUInt32LE(off)` on in-range bytes. -/
def readUInt32LE (buffer : List Nat) (off : Nat) : Nat :=
  buffer.getD off 0 + buffer.getD (off + 1) 0 * 256 +
    buffer.getD (off + 2) 0 * 65536 + buffer.getD (off + 3) 0 * 16777216

def boundsMinX : Option JBounds → JNum
  | some b => b.minX
  | _ => .undef

def boundsMinY : Option JBounds → JNum
  | some b => b.minY
  | _ => .undef

def boundsMinZ : Option JBounds → JNum
  | Option.none => .undef
  | some b => b.minZ

/-- The decode loop of decodeVarintDelta (lines 96-123): per record four
varints are read and zigzag-decoded, the running sums advance, and the
record is emitted at the sums plus `compressedData.bounds?.minX || 0`
(and likewise for y, z). -/

def decodeVarintDeltaGo (buffer : List Nat) (bounds : Option JBounds) :
    Nat → Nat → Int → Int → Int → List (List Char × JNum)
  | 0, _, _, _, _ => []
  | i + 1, offset, lastX, lastY, lastZ =>
    let rx := VarintEncoder.readVarintFast buffer offset
    let lastX2 := lastX + VarintEncoder.decodeZigzag rx.1
    let ry := VarintEncoder.readVarintFast buffer rx.2
    let lastY2 := lastY + VarintEncoder.decodeZigzag ry.1
    let rz := VarintEncoder.readVarintFast buffer ry.2
    let lastZ2 := lastZ + VarintEncoder.decodeZigzag rz.1
    let rid := VarintEncoder.readVarintFast buffer rz.2
    let blockId := VarintEncoder.decodeZigzag rid.1
    let x := JNum.add (.num lastX2) (JNum.orElse (boundsMinX bounds) (.num 0))
    let y := JNum.add (.num lastY2) (JNum.orElse (boundsMinY bounds) (.num 0))
    let z := JNum.add (.num lastZ2) (JNum.orElse (boundsMinZ bounds) (.num 0))
    (renderKey x y z, JNum.num blockId) ::
      decodeVarintDeltaGo buffer bounds i rid.2 lastX2 lastY2 lastZ2

/-- MapDecompressor.decodeVarintDelta (lines 85-126).  `readUInt32LE(0)`
raises a RangeError on a buffer shorter than 4 bytes; past that point no
bounds are checked (out-of-range reads decode as value 0). -/

def decodeVarintDelta (buffer : List Nat) (bounds : Option JBounds) :
    Except JsErr (List (List Char × JNum)) :=
  if buffer.length < 4 then .error .rangeErr
  else .ok (objInsertAll []
    (decodeVarintDeltaGo buffer bounds (readUInt32LE buffer 0) 4 0 0 0))

/-- The Int32Array little-endian view of a buffer (⌊len/4⌋ elements;
the byteOffset of the view is taken as aligned). -/

def toInt32ArrayLE (buffer : List Nat) : List Int :=
  (List.range (buffer.length / 4)).map (fun i =>
    JsNum.ofUint32 (buffer.getD (4 * i) 0 + buffer.getD (4 * i + 1) 0 * 256 +
      buffer.getD (4 * i + 2) 0 * 65536 + buffer.getD (4 * i + 3) 0 * 16777216))

/-- Indexing a typed array: out of range is undefined. -/

def getJ (arr : List Int) (i : Nat) : JNum :=
  match arr.get? i with
  | Option.none => .undef
  | some n => .num n

/-- MapDecompressor.decodeDeltaOnly (lines 191-206).  The loop bound
`int32Array.length / 4` is a fractional JavaScript number, so the loop
runs ⌈arrLen/4⌉ times and the tail reads are undefined when the element
count is not a multiple of 4. -/

def decodeDeltaOnly (buffer : List Nat) : List (List Char × JNum) :=
  let int32Array := toInt32ArrayLE buffer
  let blockCount := (int32Array.length + 3) / 4
  let deltas := (List.range blockCount).flatMap (fun i =>
    [getJ int32Array (i * 4), getJ int32Array (i * 4 + 1), getJ int32Array (i * 4 + 2)])
  let blockIds := (List.range blockCount).map (fun i => getJ int32Array (i * 4 + 3))
  DeltaEncoder.decodePositions deltas blockIds Option.none

/-- MapDecompressor.decodeDirect (lines 211-224); `i < int32Array.length`
stepping by 4 also runs ⌈arrLen/4⌉ times. -/

def decodeDirect (buffer : List Nat) : List (List Char × JNum) :=
  let int32Array := toInt32ArrayLE buffer
  objInsertAll [] ((List.range ((int32Array.length + 3) / 4)).map (fun i =>
    (renderKey (getJ int32Array (i * 4)) (getJ int32Array (i * 4 + 1))
      (getJ int32Array (i * 4 + 2)), getJ int32Array (i * 4 + 3))))

/-- Truthiness of an optional string field. -/

def strTruthy : Option (List Char) → Bool
  | some s => s ≠ []
  | _ => false

/-- The required-field validation of decompress (lines 23-25):
`!version || !data || !blockTypes`. -/

def requiredFieldsOk (a : CompressedMapData) : Bool :=
  strTruthy a.version && strTruthy a.data && a.blockTypes

def optUseDelta (a : CompressedMapData) : Bool :=
  match a.options with
  | some o => o.useDelta
  | _ => false

def optUseVarint (a : CompressedMapData) : Bool :=
  match a.options with
  | some o => o.useVarint
  | _ => false

/-- MapDecompressor.decompress (lines 20-80).  An absent algorithm field
reaches `decompressFromBase64` as undefined and picks up that function's
default, brotli. -/

def decompress (ext : ExternalBackends) (a : CompressedMapData) :
    Except JsErr DecompressionResult :=
  if requiredFieldsOk a = false then .error .invalidFormat
  else
    let decompressed := BrotliWrapper.decompressFromBase64 ext (a.data.getD [])
      (a.algorithm.getD .brotli)
    if optUseDelta a && optUseVarint a then
      match decodeVarintDelta decompressed a.bounds with
      | .error e => .error e
      | .ok blocks => .ok ⟨blocks, a.blockTypes, a.entities, blocks.length⟩
    else if optUseDelta a then
      let blocks := decodeDeltaOnly decompressed
      .ok ⟨blocks, a.blockTypes, a.entities, blocks.length⟩
    else
      let blocks := decodeDirect decompressed
      .ok ⟨blocks, a.blockTypes, a.entities, blocks.length⟩

end MapDecompressor

/-- Spec-side reference walk for the delta+varint decode with an absent
bounds field: the emitted coordinates are exactly the raw accumulated
delta sums.  (Stated from the spec's words; compared with the source
walk in the C9 theorem.) -/
def rawSumRecords (buffer : List Nat) :
    Nat → Nat → Int → Int → Int → List (List Char × JNum)
  | 0, _, _, _, _ => []
  | i + 1, offset, lastX, lastY, lastZ =>
    let rx := VarintEncoder.readVarintFast buffer offset
    let lastX2 := lastX + VarintEncoder.decodeZigzag rx.1
    let ry := VarintEncoder.readVarintFast buffer rx.2
    let lastY2 := lastY + VarintEncoder.decodeZigzag ry.1
    let rz := VarintEncoder.readVarintFast buffer ry.2
    let lastZ2 := lastZ + VarintEncoder.decodeZigzag rz.1
    let rid := VarintEncoder.readVarintFast buffer rz.2
    let blockId := VarintEncoder.decodeZigzag rid.1
    (renderKey (.num lastX2) (.num lastY2) (.num lastZ2), JNum.num blockId) ::
      rawSumRecords buffer i rid.2 lastX2 lastY2 lastZ2

/-- Spec-side reference walk for the varint+delta decode with numeric
bounds minima (mx, my, mz): each record is emitted at the accumulated
sums plus the bounds minima.  (Stated from the spec's words; compared
with the source walk in the C2 theorem.) -/

def shiftedSumRecords (buffer : List Nat) (mx my mz : Int) :
    Nat → Nat → Int → Int → Int → List (List Char × JNum)
  | 0, _, _, _, _ => []
  | i + 1, offset, lastX, lastY, lastZ =>
    let rx := VarintEncoder.readVarintFast buffer offset
    let lastX2 := lastX + VarintEncoder.decodeZigzag rx.1
    let ry := VarintEncoder.readVarintFast buffer rx.2
    let lastY2 := lastY + VarintEncoder.decodeZigzag ry.1
    let rz := VarintEncoder.readVarintFast buffer ry.2
    let lastZ2 := lastZ + VarintEncoder.decodeZigzag rz.1
    let rid := VarintEncoder.readVarintFast buffer rz.2
    let blockId := VarintEncoder.decodeZigzag rid.1
    (renderKey (.num (lastX2 + mx)) (.num (lastY2 + my)) (.num (lastZ2 + mz)),
      JNum.num blockId) ::
      shiftedSumRecords buffer mx my mz i rid.2 lastX2 lastY2 lastZ2

/-- Concrete identity-style external backends, used to instantiate the
theorems that quantify over the zlib/base64 collaborators. -/

def idBackends : ExternalBackends :=
  { brotliCompressFn := fun _ _ d => d,
    brotliDecompressFn := fun d => d,
    gzipCompressFn := fun _ d => d,
    gzipDecompressFn := fun d => d,
    toBase64Fn := fun d => d.map Char.ofNat,
    fromBase64Fn := fun s => s.map Char.toNat }

/-! ### Run-length helper lemmas (DeltaEncoder block-id codec) -/

def zigPat (v : Int) : Nat := if 0 ≤ v then (2 * v).toNat else (-2 * v - 1).toNat

/-- Deltas and ids whose zigzag pattern stays below 2^31, the range on
which MapCompressor's signed varint writer is faithful. -/

def okd (v : Int) : Bool := decide (-1073741824 ≤ v ∧ v < 1073741824)

/-- A JNum delta in the faithful range (a finite integer). -/

def okJ : JNum → Bool
  | .num v => okd v
  | _ => false

/-- The per-record range condition along a block list: each coordinate
delta from the previous block and each block id is in the faithful
range. -/

def sblocksOk : JNum → JNum → JNum → List MapCompressor.SBlock → Bool
  | _, _, _, [] => true
  | lx, ly, lz, b :: rest =>
    okJ (JNum.sub b.x lx) && okJ (JNum.sub b.y ly) && okJ (JNum.sub b.z lz) &&
      okd b.id && sblocksOk b.x b.y b.z rest

/-- The canonical byte stream the per-record encode loop emits: four
varint chunks per block (zigzagged coordinate deltas and id). -/

def schunks : Int → Int → Int → List MapCompressor.SBlock → List Nat
  | _, _, _, [] => []
  | px, py, pz, b :: rest =>
    varintChunk (zigPat (b.x.raw - px)) ++ (varintChunk (zigPat (b.y.raw - py)) ++
      (varintChunk (zigPat (b.z.raw - pz)) ++ (varintChunk (zigPat b.id) ++
      schunks b.x.raw b.y.raw b.z.raw rest)))

/-- A key that parses to three finite integers and is the canonical
rendering of them (the shape `renderKey` produces). -/

def canonicalKey (k : List Char) : Bool :=
  match parseKey k with
  | (.num x, .num y, .num z) => decide (k = renderKey (.num x) (.num y) (.num z))
  | _ => false

/-- The shifted, spatially sorted block array compress builds before the
encode loop (the `blocks` local of MapCompressor.compress). -/

def shiftedSorted (blocks : List (List Char × Int)) : List MapCompressor.SBlock :=
  let bounds := MapCompressor.calculateBounds blocks
  (blocks.map (fun kv =>
    let t := parseKey kv.1
    MapCompressor.SBlock.mk (JNum.sub t.1 bounds.minX) (JNum.sub t.2.1 bounds.minY)
      (JNum.sub t.2.2 bounds.minZ) kv.2)).mergeSort MapCompressor.sortLe

end MapCodec

namespace MapCodec

namespace JsNum

theorem toUint32_lt (v : Int) : toUint32 v < 4294967296 := by
  unfold toUint32; omega

theorem ofUint32_toUint32 {v : Int} (h1 : -2147483648 ≤ v) (h2 : v < 2147483648) :
    ofUint32 (toUint32 v) = v := by
  unfold ofUint32 toUint32; split <;> omega

theorem toUint32_ofUint32 (n : Nat) : toUint32 (ofUint32 n) = n % 4294967296 := by
  unfold ofUint32 toUint32; split <;> omega

theorem toUint32_of_nonneg {v : Int} (h1 : 0 ≤ v) (h2 : v < 4294967296) :
    (toUint32 v : Int) = v := by
  unfold toUint32; omega

theorem toUint32_of_neg {v : Int} (h1 : -4294967296 ≤ v) (h2 : v < 0) :
    (toUint32 v : Int) = v + 4294967296 := by
  unfold toUint32; omega

theorem ofUint32_small {n : Nat} (h : n < 2147483648) : ofUint32 n = (n : Int) := by
  unfold ofUint32; split <;> omega

theorem ofUint32_large {n : Nat} (h1 : 2147483648 ≤ n) (h2 : n < 4294967296) :
    ofUint32 n = (n : Int) - 4294967296 := by
  unfold ofUint32; split <;> omega

end JsNum

/-! ### Bit-arithmetic toolkit -/

theorem xor_div_two (x y : Nat) : (x ^^^ y) / 2 = x / 2 ^^^ y / 2 := by
  apply Nat.eq_of_testBit_eq
  intro i
  simp [← Nat.testBit_add_one, Nat.testBit_xor]

theorem or_div_two (x y : Nat) : (x ||| y) / 2 = x / 2 ||| y / 2 := by
  apply Nat.eq_of_testBit_eq
  intro i
  simp [← Nat.testBit_add_one, Nat.testBit_or]

theorem xor_mod_two (x y : Nat) : (x ^^^ y) % 2 = (x % 2 + y % 2) % 2 := by
  have h := Nat.testBit_xor x y 0
  simp only [Nat.testBit_zero] at h
  rcases Nat.mod_two_eq_zero_or_one x with hx | hx <;>
    rcases Nat.mod_two_eq_zero_or_one y with hy | hy <;>
      rcases Nat.mod_two_eq_zero_or_one (x ^^^ y) with hz | hz <;>
        simp [hx, hy, hz] at h ⊢

theorem or_mod_two_right_even (x y : Nat) (h : y % 2 = 0) : (x ||| y) % 2 = x % 2 := by
  have hbit := Nat.testBit_or x y 0
  simp only [Nat.testBit_zero] at hbit
  rcases Nat.mod_two_eq_zero_or_one x with hx | hx <;>
    rcases Nat.mod_two_eq_zero_or_one (x ||| y) with hz | hz <;>
      simp [hx, h, hz] at hbit ⊢

/-- XOR with an all-ones mask is complement, hence subtraction. -/

theorem xor_all_ones (n : Nat) : ∀ x, x < 2 ^ n → x ^^^ (2 ^ n - 1) = 2 ^ n - 1 - x := by
  induction n with
  | zero =>
    intro x hx
    have : x = 0 := by omega
    subst this; rfl
  | succ n ih =>
    intro x hx
    have hp : 1 ≤ 2 ^ n := Nat.one_le_two_pow
    have h2 : (2 : Nat) ^ (n + 1) = 2 * 2 ^ n := by ring
    have hd : x / 2 < 2 ^ n := by omega
    have e1 : (x ^^^ (2 ^ (n + 1) - 1)) / 2 = x / 2 ^^^ (2 ^ n - 1) := by
      rw [xor_div_two]
      congr 1
      omega
    have e2 : (x ^^^ (2 ^ (n + 1) - 1)) % 2 = (x % 2 + (2 ^ (n + 1) - 1) % 2) % 2 :=
      xor_mod_two x _
    have e3 : (2 ^ (n + 1) - 1) % 2 = 1 := by omega
    have e4 := Nat.div_add_mod (x ^^^ (2 ^ (n + 1) - 1)) 2
    have e5 := Nat.div_add_mod x 2
    have hih := ih (x / 2) hd
    omega

/-- A value below `2^k` OR-ed with a multiple of `2^k` is their sum. -/

theorem lor_two_pow_add {k r : Nat} (a : Nat) (hr : r < 2 ^ k) :
    r ||| a * 2 ^ k = r + a * 2 ^ k := by
  have hmain := Nat.mul_add_lt_is_or hr a
  calc r ||| a * 2 ^ k = 2 ^ k * a ||| r := by rw [Nat.or_comm, Nat.mul_comm]
    _ = 2 ^ k * a + r := hmain.symm
    _ = r + a * 2 ^ k := by ring

theorem and_shiftLeft_mask (x m k : Nat) : x &&& (m <<< k) = ((x >>> k) &&& m) <<< k := by
  apply Nat.eq_of_testBit_eq
  intro i
  simp only [Nat.testBit_and, Nat.testBit_shiftLeft, Nat.testBit_shiftRight]
  rcases Nat.lt_or_ge i k with h | h
  · have hk : ¬ k ≤ i := by omega
    simp [hk]
  · have hk : k ≤ i := h
    have hi : k + (i - k) = i := by omega
    simp [hk, hi, Bool.and_left_comm, Bool.and_comm]

theorem and_127 (x : Nat) : x &&& 127 = x % 128 := by
  have h := Nat.and_pow_two_sub_one_eq_mod x 7
  norm_num at h
  exact h

theorem and_128 (x : Nat) : x &&& 128 = x / 128 % 2 * 128 := by
  have h := and_shiftLeft_mask x 1 7
  norm_num [Nat.shiftLeft_eq, Nat.shiftRight_eq_div_pow, Nat.and_one_is_mod] at h
  exact h

theorem and_high_mask (x : Nat) : x &&& 4294967168 = x / 128 % 33554432 * 128 := by
  have h := and_shiftLeft_mask x 33554431 7
  norm_num [Nat.shiftLeft_eq, Nat.shiftRight_eq_div_pow] at h
  have h2 := Nat.and_pow_two_sub_one_eq_mod (x / 128) 25
  norm_num at h2
  rw [h2] at h
  exact h

/-! ### VarintEncoder: zigzag transform (src/encoders/VarintEncoder.ts, lines 9-18) -/

/-- The zigzag bit pattern of an int32, as an unsigned value. -/
theorem toUint32_encodeZigzag {v : Int} (h1 : -2147483648 ≤ v) (h2 : v < 2147483648) :
    JsNum.toUint32 (VarintEncoder.encodeZigzag v) =
      if 0 ≤ v then (2 * v).toNat else (-2 * v - 1).toNat := by
  unfold VarintEncoder.encodeZigzag JsNum.xor32 JsNum.shl JsNum.sar JsNum.toInt32
  rw [JsNum.ofUint32_toUint32 h1 h2]
  have hpow : ((2 : Int) ^ 31) = 2147483648 := by norm_num
  rw [hpow]
  simp only [JsNum.toUint32_ofUint32, Nat.shiftLeft_eq]
  have hpw : (2 : Nat) ^ 32 = 4294967296 := by norm_num
  rcases le_or_lt 0 v with hv | hv
  · have hq : v / 2147483648 = 0 := by omega
    rw [hq]
    have hB : JsNum.toUint32 0 = 0 := by unfold JsNum.toUint32; omega
    rw [hB, Nat.xor_zero]
    have htu : JsNum.toUint32 v = v.toNat := by unfold JsNum.toUint32; omega
    rw [htu, if_pos hv]
    have h21 : (2 : Nat) ^ 1 = 2 := by norm_num
    rw [h21]
    omega
  · have hq : v / 2147483648 = -1 := by omega
    rw [hq]
    have hB : JsNum.toUint32 (-1) = 4294967295 := by unfold JsNum.toUint32; omega
    rw [hB]
    have htu : (JsNum.toUint32 v : Int) = v + 4294967296 := by unfold JsNum.toUint32; omega
    have h21 : (2 : Nat) ^ 1 = 2 := by norm_num
    rw [h21]
    have hm : JsNum.toUint32 v * 2 % 4294967296 = (2 * v + 4294967296).toNat := by omega
    rw [hm]
    have hco : (4294967295 : Nat) = 2 ^ 32 - 1 := by norm_num
    have hx := xor_all_ones 32 ((2 * v + 4294967296).toNat) (by omega)
    rw [hco, hx]
    rw [if_neg (by omega : ¬ 0 ≤ v)]
    omega

/-- decodeZigzag only looks at the 32-bit pattern of its argument. -/

theorem decodeZigzag_congr {a b : Int} (h : JsNum.toUint32 a = JsNum.toUint32 b) :
    VarintEncoder.decodeZigzag a = VarintEncoder.decodeZigzag b := by
  unfold VarintEncoder.decodeZigzag JsNum.shrU JsNum.and32
  rw [h]

/-- decodeZigzag of a value whose 32-bit pattern is `n`. -/

theorem decodeZigzag_pattern {a : Int} {n : Nat} (hn : n < 4294967296)
    (h : JsNum.toUint32 a = n) :
    VarintEncoder.decodeZigzag a =
      if n % 2 = 0 then ((n / 2 : Nat) : Int) else -((n / 2 : Nat) : Int) - 1 := by
  unfold VarintEncoder.decodeZigzag JsNum.shrU JsNum.and32 JsNum.xor32
  rw [h]
  have h127 : n &&& JsNum.toUint32 1 = n % 2 := by
    have h1 : JsNum.toUint32 1 = 1 := by unfold JsNum.toUint32; omega
    rw [h1, Nat.and_one_is_mod]
  rw [h127]
  have hsh : n >>> 1 = n / 2 := by
    rw [Nat.shiftRight_eq_div_pow]
  rw [hsh]
  have htn : JsNum.toUint32 ((n / 2 : Nat) : Int) = n / 2 := by
    unfold JsNum.toUint32; omega
  rcases Nat.mod_two_eq_zero_or_one n with hpar | hpar
  · rw [hpar]
    have h0 : JsNum.ofUint32 0 = 0 := by unfold JsNum.ofUint32; norm_num
    rw [h0, neg_zero]
    have ht : JsNum.toUint32 0 = 0 := by unfold JsNum.toUint32; omega
    rw [ht, htn, Nat.xor_zero, if_pos rfl]
    exact JsNum.ofUint32_small (by omega)
  · rw [hpar]
    have h1 : JsNum.ofUint32 1 = 1 := by unfold JsNum.ofUint32; norm_num
    rw [h1]
    have ht : JsNum.toUint32 (-1) = 4294967295 := by unfold JsNum.toUint32; omega
    rw [ht, htn]
    have hco : (4294967295 : Nat) = 2 ^ 32 - 1 := by norm_num
    have hx := xor_all_ones 32 (n / 2) (by omega)
    rw [hco, hx]
    rw [if_neg (by omega : ¬ (1 : Nat) = 0)]
    have hl := JsNum.ofUint32_large (n := 2 ^ 32 - 1 - n / 2) (by omega) (by omega)
    rw [hl]
    omega

/-- Zigzag round trip on the full signed 32-bit range. -/

theorem decodeZigzag_encodeZigzag {v : Int} (h1 : -2147483648 ≤ v) (h2 : v < 2147483648) :
    VarintEncoder.decodeZigzag (VarintEncoder.encodeZigzag v) = v := by
  have hz := toUint32_encodeZigzag h1 h2
  rcases le_or_lt 0 v with hv | hv
  · rw [if_pos hv] at hz
    have := decodeZigzag_pattern (a := VarintEncoder.encodeZigzag v)
      (n := (2 * v).toNat) (by omega) hz
    rw [this, if_pos (by omega)]
    omega
  · rw [if_neg (by omega)] at hz
    have := decodeZigzag_pattern (a := VarintEncoder.encodeZigzag v)
      (n := (-2 * v - 1).toNat) (by omega) hz
    rw [this, if_neg (by omega)]
    omega

/-! ### Varint byte streams -/

/-- Canonical little-endian base-128 chunk of an unsigned value
(reference byte sequence; both source writers are proved below to emit it). -/

theorem varintChunk_small {n : Nat} (h : n ≤ 127) : varintChunk n = [n] := by
  rw [varintChunk, dif_neg (by omega)]

theorem varintChunk_large {n : Nat} (h : 127 < n) :
    varintChunk n = (n % 128 + 128) :: varintChunk (n / 128) := by
  rw [varintChunk, dif_pos h]

theorem varintChunk_bytes : ∀ n, ∀ b ∈ varintChunk n, b < 256 := by
  intro n
  induction n using Nat.strong_induction_on with
  | _ n ih =>
    intro b hb
    by_cases h : 127 < n
    · rw [varintChunk_large h] at hb
      rcases List.mem_cons.mp hb with hb | hb
      · omega
      · exact ih (n / 128) (Nat.div_lt_self (by omega) (by omega)) b hb
    · rw [varintChunk_small (by omega)] at hb
      rcases List.mem_cons.mp hb with hb | hb
      · omega
      · simp at hb

theorem varintChunk_length : ∀ k n, n < 2 ^ (7 * (k + 1)) → (varintChunk n).length ≤ k + 1 := by
  intro k
  induction k with
  | zero =>
    intro n hn
    have h128 : (2 : Nat) ^ (7 * 1) = 128 := by norm_num
    rw [varintChunk_small (by omega)]
    simp
  | succ k ih =>
    intro n hn
    by_cases h : 127 < n
    · rw [varintChunk_large h]
      have hq : n / 128 < 2 ^ (7 * (k + 1)) := by
        have hpw : (2 : Nat) ^ (7 * (k + 2)) = 2 ^ (7 * (k + 1)) * 128 := by
          have : 7 * (k + 2) = 7 * (k + 1) + 7 := by omega
          rw [this, pow_add]
          norm_num
        rw [hpw] at hn
        omega
      have := ih (n / 128) hq
      simpa using Nat.succ_le_succ this
    · rw [varintChunk_small (by omega)]
      simp

theorem varintChunk_length_le_five {n : Nat} (hn : n < 4294967296) :
    (varintChunk n).length ≤ 5 := by
  have h := varintChunk_length 4 n (by norm_num; omega)
  omega

/-- Write a byte sequence into a buffer at consecutive indices
(out-of-range writes are silently dropped, as on a Node Buffer). -/

theorem writeBytesAt_length : ∀ bs (buf : List Nat) off,
    (writeBytesAt buf off bs).length = buf.length := by
  intro bs
  induction bs with
  | nil => intro buf off; rfl
  | cons b rest ih =>
    intro buf off
    rw [writeBytesAt, ih]
    simp

theorem writeBytesAt_take : ∀ bs (buf : List Nat) off, off + bs.length ≤ buf.length →
    (writeBytesAt buf off bs).take (off + bs.length) = buf.take off ++ bs := by
  intro bs
  induction bs with
  | nil => intro buf off h; simp [writeBytesAt]
  | cons b rest ih =>
    intro buf off h
    simp only [writeBytesAt, List.length_cons]
    have hoff : off < buf.length := by simp at h; omega
    have h2 : (off + 1) + rest.length ≤ (buf.set off b).length := by
      simp; simp at h; omega
    have := ih (buf.set off b) (off + 1) h2
    have harith : off + (rest.length + 1) = (off + 1) + rest.length := by omega
    rw [harith, this]
    rw [List.set_eq_take_cons_drop b hoff]
    rw [List.take_append_eq_append_take]
    have hlen : (buf.take off).length = off := List.length_take_of_le (by omega)
    rw [hlen]
    simp

theorem writeBytesAt_getD_before : ∀ bs (buf : List Nat) off j, j < off →
    (writeBytesAt buf off bs).getD j 0 = buf.getD j 0 := by
  intro bs
  induction bs with
  | nil => intro buf off j h; rfl
  | cons b rest ih =>
    intro buf off j h
    simp only [writeBytesAt]
    rw [ih (buf.set off b) (off + 1) j (by omega)]
    simp only [List.getD_eq_getElem?_getD]
    rw [List.getElem?_set_ne (by omega)]

theorem writeBytesAt_getD_in : ∀ bs (buf : List Nat) off i, i < bs.length →
    off + bs.length ≤ buf.length →
    (writeBytesAt buf off bs).getD (off + i) 0 = bs.getD i 0 := by
  intro bs
  induction bs with
  | nil => intro buf off i hi; simp at hi
  | cons b rest ih =>
    intro buf off i hi hbuf
    have hlc : (b :: rest).length = rest.length + 1 := rfl
    have hsl : (buf.set off b).length = buf.length := by simp
    simp only [writeBytesAt]
    match i with
    | 0 =>
      show (writeBytesAt (buf.set off b) (off + 1) rest).getD off 0 = b
      rw [writeBytesAt_getD_before rest (buf.set off b) (off + 1) off (by omega)]
      simp only [List.getD_eq_getElem?_getD]
      rw [List.getElem?_set_self (by omega)]
      rfl
    | i + 1 =>
      show (writeBytesAt (buf.set off b) (off + 1) rest).getD (off + (i + 1)) 0 =
        rest.getD i 0
      have := ih (buf.set off b) (off + 1) i (by omega) (by rw [hsl]; omega)
      have harith : off + (i + 1) = (off + 1) + i := by omega
      rw [harith, this]

namespace JsNum

theorem toUint32_natCast {k : Nat} (h : k < 4294967296) : toUint32 (k : Int) = k := by
  unfold toUint32; omega

end JsNum

/-! ### The two writers emit the canonical chunk; the reader inverts it -/

theorem and_high_ne_zero {n : Nat} (hn : n < 4294967296) :
    (n &&& 4294967168 ≠ 0) ↔ 127 < n := by
  rw [and_high_mask]
  have hm : n / 128 % 33554432 = n / 128 := by omega
  rw [hm]
  omega

theorem byte_or_128 (n : Nat) : (n &&& 127) ||| 128 = n % 128 + 128 := by
  rw [and_127]
  have h := lor_two_pow_add (k := 7) (r := n % 128) 1 (by omega)
  norm_num at h
  exact h

theorem mod_lor_128 (n : Nat) : n % 128 ||| 128 = n % 128 + 128 := by
  have h := lor_two_pow_add (k := 7) (r := n % 128) 1 (by omega)
  norm_num at h
  exact h

theorem shiftRight_seven (n : Nat) : n >>> 7 = n / 128 := by
  rw [Nat.shiftRight_eq_div_pow]

theorem and_128_of_small {n : Nat} (h : n < 128) : n &&& 128 = 0 := by
  rw [and_128]
  omega

theorem and_128_of_byte {n : Nat} (h1 : 128 ≤ n) (h2 : n < 256) : n &&& 128 = 128 := by
  rw [and_128]
  omega

theorem and_127_of_small {n : Nat} (h : n < 128) : n &&& 127 = n := by
  rw [and_127]
  omega

theorem add_mul_pow_lt {v n s : Nat} (hs : s ≤ 32) (hv : v < 2 ^ s) (hn : n < 2 ^ (32 - s)) :
    v + n * 2 ^ s < 4294967296 := by
  have hps : 2 ^ (32 - s) * 2 ^ s = 2 ^ 32 := by
    rw [← pow_add]
    congr 1
    omega
  have hp32 : (2 : Nat) ^ 32 = 4294967296 := by norm_num
  calc v + n * 2 ^ s < 2 ^ s + n * 2 ^ s := by omega
    _ = (n + 1) * 2 ^ s := by ring
    _ ≤ 2 ^ (32 - s) * 2 ^ s := Nat.mul_le_mul_right _ (by omega)
    _ = 4294967296 := by rw [hps, hp32]

theorem mul_pow_lt {n s : Nat} (hs : s ≤ 32) (hn : n < 2 ^ (32 - s)) :
    n * 2 ^ s < 4294967296 := by
  have hsp : 1 ≤ (2 : Nat) ^ s := Nat.one_le_two_pow
  have h := add_mul_pow_lt (v := 0) hs (by omega) hn
  omega

/-- `VarintEncoder.writeVarint`'s loop writes exactly the canonical chunk. -/

theorem writeVarintLoop_eq : ∀ n, n < 4294967296 → ∀ (buf : List Nat) (off : Nat),
    VarintEncoder.writeVarintLoop buf off n =
      (writeBytesAt buf off (varintChunk n), off + (varintChunk n).length) := by
  intro n
  induction n using Nat.strong_induction_on with
  | _ n ih =>
    intro hn buf off
    rw [VarintEncoder.writeVarintLoop]
    by_cases hg : 127 < n
    · rw [dif_pos ((and_high_ne_zero hn).mpr hg)]
      rw [shiftRight_seven, byte_or_128]
      rw [ih (n / 128) (Nat.div_lt_self (by omega) (by omega)) (by omega)
        (buf.set off (n % 128 + 128)) (off + 1)]
      rw [varintChunk_large hg]
      simp only [Prod.mk.injEq]
      refine ⟨rfl, ?_⟩
      simp only [List.length_cons]
      omega
    · rw [dif_neg (fun hc => hg ((and_high_ne_zero hn).mp hc))]
      rw [varintChunk_small (by omega), and_127]
      have hm : n % 128 = n := by omega
      rw [hm]
      rfl

/-- `MapCompressor`'s private varint loop writes the same canonical chunk
when `current` is a non-negative int32 pattern. -/

theorem mcWriteVarintLoop_eq : ∀ n : Nat, n < 4294967296 → ∀ (buf : List Nat) (off : Nat),
    MapCompressor.writeVarintLoop buf off (n : Int) =
      (writeBytesAt buf off (varintChunk n), off + (varintChunk n).length) := by
  intro n
  induction n using Nat.strong_induction_on with
  | _ n ih =>
    intro hn buf off
    rw [MapCompressor.writeVarintLoop]
    by_cases hg : 127 < n
    · rw [dif_pos (by exact_mod_cast hg)]
      have h1 : JsNum.toUint32 (n : Int) = n := JsNum.toUint32_natCast hn
      have h127 : JsNum.toUint32 127 = 127 := by unfold JsNum.toUint32; omega
      have h128 : JsNum.toUint32 128 = 128 := by unfold JsNum.toUint32; omega
      have hand : JsNum.and32 (n : Int) 127 = ((n % 128 : Nat) : Int) := by
        unfold JsNum.and32
        rw [h1, h127, and_127]
        exact JsNum.ofUint32_small (by omega)
      have hor : JsNum.or32 ((n % 128 : Nat) : Int) 128 = ((n % 128 + 128 : Nat) : Int) := by
        unfold JsNum.or32
        rw [JsNum.toUint32_natCast (by omega), h128, mod_lor_128]
        exact JsNum.ofUint32_small (by omega)
      have hbyte : ((JsNum.or32 (JsNum.and32 (n : Int) 127) 128 % 256).toNat) =
          n % 128 + 128 := by
        rw [hand, hor]
        omega
      have hsh : JsNum.shrU (n : Int) 7 = ((n / 128 : Nat) : Int) := by
        unfold JsNum.shrU
        rw [h1, shiftRight_seven]
      rw [hbyte, hsh]
      rw [ih (n / 128) (Nat.div_lt_self (by omega) (by omega)) (by omega)
        (buf.set off (n % 128 + 128)) (off + 1)]
      rw [varintChunk_large hg]
      simp only [Prod.mk.injEq]
      refine ⟨rfl, ?_⟩
      simp only [List.length_cons]
      omega
    · rw [dif_neg (by exact_mod_cast hg)]
      rw [varintChunk_small (by omega)]
      have hfin : (((n : Int) % 256).toNat) = n := by omega
      rw [hfin]
      rfl

/-- The shared read loop consumes exactly one canonical chunk and
accumulates its value shifted into place. -/

theorem readVarintLoop_spec : ∀ n, n < 4294967296 →
    ∀ (s : Nat) (value : Int) (buf : List Nat) (off : Nat),
      s ≤ 31 → n < 2 ^ (32 - s) → JsNum.toUint32 value < 2 ^ s →
      (∀ i, i < (varintChunk n).length → buf.getD (off + i) 0 = (varintChunk n).getD i 0) →
      (VarintEncoder.readVarintLoop buf off value s).2 = off + (varintChunk n).length ∧
      JsNum.toUint32 (VarintEncoder.readVarintLoop buf off value s).1 =
        JsNum.toUint32 value + n * 2 ^ s := by
  intro n
  induction n using Nat.strong_induction_on with
  | _ n ih =>
    intro hn s value buf off hs hns hval hbytes
    rw [VarintEncoder.readVarintLoop]
    by_cases hg : 127 < n
    · -- continuation byte
      have hb : buf.getD off 0 = n % 128 + 128 := by
        have := hbytes 0 (by rw [varintChunk_large hg]; simp)
        rw [varintChunk_large hg] at this
        simpa using this
      have hcont : buf.getD off 0 &&& 128 ≠ 0 := by
        rw [hb, and_128_of_byte (by omega) (by omega)]
        omega
      rw [dif_pos hcont]
      have h7 : 7 < 32 - s := by
        have hppow : (2 : Nat) ^ 7 < 2 ^ (32 - s) := by
          calc (2 : Nat) ^ 7 = 128 := by norm_num
            _ ≤ n := by omega
            _ < 2 ^ (32 - s) := hns
        exact (Nat.pow_lt_pow_iff_right (by omega)).mp hppow
      have hmask : buf.getD off 0 &&& 127 = n % 128 := by
        rw [hb, and_127]
        omega
      have hmod : n % 128 < 2 ^ (32 - s) := by
        have h128 : (128 : Nat) < 2 ^ (32 - s) := by
          calc (128 : Nat) ≤ n := by omega
            _ < 2 ^ (32 - s) := hns
        omega
      have hshl : JsNum.toUint32 (JsNum.shl ((n % 128 : Nat) : Int) s) = n % 128 * 2 ^ s := by
        unfold JsNum.shl
        rw [JsNum.toUint32_ofUint32, JsNum.toUint32_natCast (by omega), Nat.shiftLeft_eq]
        exact Nat.mod_eq_of_lt (mul_pow_lt (by omega) hmod)
      have hval2 : JsNum.toUint32
          (JsNum.or32 value (JsNum.shl ((n % 128 : Nat) : Int) s)) =
          JsNum.toUint32 value + n % 128 * 2 ^ s := by
        unfold JsNum.or32
        rw [JsNum.toUint32_ofUint32, hshl,
          lor_two_pow_add (k := s) (r := JsNum.toUint32 value) (n % 128) hval]
        exact Nat.mod_eq_of_lt (add_mul_pow_lt (by omega) hval hmod)
      rw [hmask]
      -- recursive step
      have hq : n / 128 < 2 ^ (32 - (s + 7)) := by
        have hsplit : (2 : Nat) ^ (32 - s) = 2 ^ (32 - (s + 7)) * 128 := by
          have h7e : (32 - s) = (32 - (s + 7)) + 7 := by omega
          rw [h7e, pow_add]
          norm_num
        rw [hsplit] at hns
        omega
      have hv2lt : JsNum.toUint32
          (JsNum.or32 value (JsNum.shl ((n % 128 : Nat) : Int) s)) < 2 ^ (s + 7) := by
        rw [hval2]
        have hup : n % 128 * 2 ^ s ≤ 127 * 2 ^ s := Nat.mul_le_mul_right _ (by omega)
        have hps : (2 : Nat) ^ (s + 7) = 128 * 2 ^ s := by
          rw [pow_add, Nat.mul_comm]
          norm_num
        omega
      have hbytes2 : ∀ i, i < (varintChunk (n / 128)).length →
          buf.getD (off + 1 + i) 0 = (varintChunk (n / 128)).getD i 0 := by
        intro i hi
        have := hbytes (i + 1) (by rw [varintChunk_large hg]; simp; omega)
        rw [varintChunk_large hg] at this
        simp only [List.getD_cons_succ] at this
        have harith : off + (i + 1) = off + 1 + i := by omega
        rw [harith] at this
        exact this
      obtain ⟨ihoff, ihval⟩ := ih (n / 128) (Nat.div_lt_self (by omega) (by omega))
        (by omega) (s + 7)
        (JsNum.or32 value (JsNum.shl ((n % 128 : Nat) : Int) s)) buf (off + 1)
        (by omega) hq hv2lt hbytes2
      constructor
      · rw [ihoff, varintChunk_large hg]
        simp only [List.length_cons]
        omega
      · rw [ihval, hval2]
        have hqr : n = 128 * (n / 128) + n % 128 := by omega
        have hps : (2 : Nat) ^ (s + 7) = 128 * 2 ^ s := by
          rw [pow_add, Nat.mul_comm]
          norm_num
        rw [hps]
        conv_rhs => rw [hqr]
        ring
    · -- final byte
      have hb : buf.getD off 0 = n := by
        have := hbytes 0 (by rw [varintChunk_small (by omega)]; simp)
        rw [varintChunk_small (by omega)] at this
        simpa using this
      have hstop : ¬ buf.getD off 0 &&& 128 ≠ 0 := by
        rw [hb, and_128_of_small (by omega)]
        omega
      rw [dif_neg hstop]
      have hmask : buf.getD off 0 &&& 127 = n := by
        rw [hb, and_127_of_small (by omega)]
      rw [hmask]
      constructor
      · rw [varintChunk_small (by omega)]
        rfl
      · have hshl : JsNum.toUint32 (JsNum.shl ((n : Nat) : Int) s) = n * 2 ^ s := by
          unfold JsNum.shl
          rw [JsNum.toUint32_ofUint32, JsNum.toUint32_natCast (by omega), Nat.shiftLeft_eq]
          exact Nat.mod_eq_of_lt (mul_pow_lt (by omega) hns)
        unfold JsNum.or32
        rw [JsNum.toUint32_ofUint32, hshl,
          lor_two_pow_add (k := s) (r := JsNum.toUint32 value) n hval]
        exact Nat.mod_eq_of_lt (add_mul_pow_lt (by omega) hval hns)

/-! ### Extended JavaScript numbers (integers, NaN, infinities, undefined) -/

theorem takeWhile_replicate_self (x : Int) : ∀ m : Nat,
    (List.replicate m x).takeWhile (fun y => y = x) = List.replicate m x := by
  intro m
  induction m with
  | zero => rfl
  | succ m ih =>
    rw [List.replicate_succ, List.takeWhile_cons_of_pos (by simp), ih]

theorem replicate_takeWhile_decomp (x : Int) : ∀ l : List Int,
    l = List.replicate (l.takeWhile (fun y => y = x)).length x ++
      l.drop (l.takeWhile (fun y => y = x)).length := by
  intro l
  induction l with
  | nil => rfl
  | cons a t ih =>
    by_cases ha : a = x
    · rw [List.takeWhile_cons_of_pos (by simp [ha])]
      simp only [List.length_cons, List.replicate_succ, List.drop_succ_cons,
        List.cons_append]
      rw [ha]
      exact congrArg (x :: ·) ih
    · rw [List.takeWhile_cons_of_neg (by simp [ha])]
      simp

theorem decodeBlockIdsGo_cons_nonneg {x : Int} (hx : 0 ≤ x) (w : List Int) :
    DeltaEncoder.decodeBlockIdsGo (x :: w) =
      JNum.num x :: DeltaEncoder.decodeBlockIdsGo w := by
  cases w with
  | nil => rw [DeltaEncoder.decodeBlockIdsGo.eq_3, if_neg (by omega)]
  | cons b t => rw [DeltaEncoder.decodeBlockIdsGo.eq_2, if_neg (by omega)]

theorem decodeBlockIdsGo_marker {c : Int} (hc : c < 0) (id : Int) (w : List Int) :
    DeltaEncoder.decodeBlockIdsGo (c :: id :: w) =
      List.replicate (-c).toNat (JNum.num id) ++ DeltaEncoder.decodeBlockIdsGo w := by
  rw [DeltaEncoder.decodeBlockIdsGo, if_pos hc]

theorem decodeBlockIdsGo_replicate {x : Int} (hx : 0 ≤ x) :
    ∀ (m : Nat) (w : List Int),
      DeltaEncoder.decodeBlockIdsGo (List.replicate m x ++ w) =
        List.replicate m (JNum.num x) ++ DeltaEncoder.decodeBlockIdsGo w := by
  intro m
  induction m with
  | zero => intro w; rfl
  | succ m ih =>
    intro w
    rw [List.replicate_succ, List.cons_append, decodeBlockIdsGo_cons_nonneg hx, ih]
    rfl

theorem decodeGo_encodeGo : ∀ (N : Nat) (ids : List Int), ids.length ≤ N →
    (∀ x ∈ ids, 0 ≤ x) →
    DeltaEncoder.decodeBlockIdsGo (DeltaEncoder.encodeBlockIdsGo ids) =
      ids.map JNum.num := by
  intro N
  induction N with
  | zero =>
    intro ids hlen _
    have : ids = [] := by
      cases ids with
      | nil => rfl
      | cons a t => simp at hlen
    subst this
    rw [DeltaEncoder.encodeBlockIdsGo]
    rfl
  | succ N ih =>
    intro ids hlen hnn
    match ids with
    | [] =>
      rw [DeltaEncoder.encodeBlockIdsGo]
      rfl
    | x :: rest =>
      rw [DeltaEncoder.encodeBlockIdsGo]
      have hx : 0 ≤ x := hnn x (by simp)
      have hdec := replicate_takeWhile_decomp x rest
      have hk1 : 1 + (rest.takeWhile (fun y => y = x)).length - 1 =
          (rest.takeWhile (fun y => y = x)).length := by omega
      have hdrople : (rest.drop (rest.takeWhile (fun y => y = x)).length).length ≤ N := by
        have h1 : rest.length ≤ N := by
          have := hlen
          simp only [List.length_cons] at this
          omega
        simp only [List.length_drop]
        omega
      have hdropnn : ∀ y ∈ rest.drop (rest.takeWhile (fun y => y = x)).length, 0 ≤ y := by
        intro y hy
        exact hnn y (by simp [List.mem_of_mem_drop hy])
      have hih := ih _ hdrople hdropnn
      by_cases hc : 2 < 1 + (rest.takeWhile (fun y => y = x)).length
      · rw [if_pos hc, hk1]
        simp only [List.cons_append, List.nil_append]
        rw [decodeBlockIdsGo_marker (by push_cast; omega), hih]
        have htn : (-(-((1 + (rest.takeWhile (fun y => y = x)).length : Nat) : Int))).toNat =
            1 + (rest.takeWhile (fun y => y = x)).length := by omega
        rw [htn]
        conv_rhs => rw [hdec]
        simp only [List.map_cons, List.map_append, List.map_replicate]
        rw [show 1 + (rest.takeWhile (fun y => y = x)).length =
          (rest.takeWhile (fun y => y = x)).length + 1 from by omega]
        rw [List.replicate_succ]
        simp
      · rw [if_neg hc, hk1]
        rw [decodeBlockIdsGo_replicate hx, hih]
        conv_rhs => rw [hdec]
        simp only [List.map_cons, List.map_append, List.map_replicate]
        rw [show 1 + (rest.takeWhile (fun y => y = x)).length =
          (rest.takeWhile (fun y => y = x)).length + 1 from by omega]
        rw [List.replicate_succ]
        simp

/-! ### Decode-loop bounds handling -/

theorem orElse_num_zero (m : Int) : JNum.orElse (.num m) (.num 0) = .num m := by
  by_cases hm : m = 0
  · subst hm
    rfl
  · simp [JNum.orElse, JNum.truthy, hm]

theorem add_num_num (s m : Int) : JNum.add (.num s) (.num m) = .num (s + m) := rfl

theorem add_num_zero (s : Int) : JNum.add (.num s) (.num 0) = .num s := by
  rw [add_num_num, add_zero]

theorem decodeVarintDeltaGo_none_raw (buffer : List Nat) :
    ∀ (cnt off : Nat) (lx ly lz : Int),
      MapDecompressor.decodeVarintDeltaGo buffer Option.none cnt off lx ly lz =
        rawSumRecords buffer cnt off lx ly lz := by
  intro cnt
  induction cnt with
  | zero => intro off lx ly lz; rfl
  | succ i ih =>
    intro off lx ly lz
    simp only [MapDecompressor.decodeVarintDeltaGo, rawSumRecords]
    have hbm : JNum.orElse (MapDecompressor.boundsMinX Option.none) (.num 0) = .num 0 := rfl
    have hbm2 : JNum.orElse (MapDecompressor.boundsMinY Option.none) (.num 0) = .num 0 := rfl
    have hbm3 : JNum.orElse (MapDecompressor.boundsMinZ Option.none) (.num 0) = .num 0 := rfl
    rw [hbm, hbm2, hbm3, add_num_zero, add_num_zero, add_num_zero, ih]

theorem decodeVarintDeltaGo_zero_raw (buffer : List Nat) :
    ∀ (cnt off : Nat) (lx ly lz : Int),
      MapDecompressor.decodeVarintDeltaGo buffer (some zeroJBounds) cnt off lx ly lz =
        rawSumRecords buffer cnt off lx ly lz := by
  intro cnt
  induction cnt with
  | zero => intro off lx ly lz; rfl
  | succ i ih =>
    intro off lx ly lz
    simp only [MapDecompressor.decodeVarintDeltaGo, rawSumRecords]
    have hbm : JNum.orElse (MapDecompressor.boundsMinX (some zeroJBounds)) (.num 0) =
        .num 0 := rfl
    have hbm2 : JNum.orElse (MapDecompressor.boundsMinY (some zeroJBounds)) (.num 0) =
        .num 0 := rfl
    have hbm3 : JNum.orElse (MapDecompressor.boundsMinZ (some zeroJBounds)) (.num 0) =
        .num 0 := rfl
    rw [hbm, hbm2, hbm3, add_num_zero, add_num_zero, add_num_zero, ih]

theorem decodeVarintDeltaGo_num_bounds (buffer : List Nat) (bb : JBounds)
    (mx my mz : Int) (hx : bb.minX = JNum.num mx) (hy : bb.minY = JNum.num my)
    (hz : bb.minZ = JNum.num mz) :
    ∀ (cnt off : Nat) (lx ly lz : Int),
      MapDecompressor.decodeVarintDeltaGo buffer (some bb) cnt off lx ly lz =
        shiftedSumRecords buffer mx my mz cnt off lx ly lz := by
  intro cnt
  induction cnt with
  | zero => intro off lx ly lz; rfl
  | succ i ih =>
    intro off lx ly lz
    simp only [MapDecompressor.decodeVarintDeltaGo, shiftedSumRecords]
    have hbm : JNum.orElse (MapDecompressor.boundsMinX (some bb)) (.num 0) = .num mx := by
      simp only [MapDecompressor.boundsMinX, hx]
      exact orElse_num_zero mx
    have hbm2 : JNum.orElse (MapDecompressor.boundsMinY (some bb)) (.num 0) = .num my := by
      simp only [MapDecompressor.boundsMinY, hy]
      exact orElse_num_zero my
    have hbm3 : JNum.orElse (MapDecompressor.boundsMinZ (some bb)) (.num 0) = .num mz := by
      simp only [MapDecompressor.boundsMinZ, hz]
      exact orElse_num_zero mz
    rw [hbm, hbm2, hbm3, add_num_num, add_num_num, add_num_num, ih]

/-! ### Round-trip infrastructure for the delta+varint pipeline -/

/-- The unsigned zigzag pattern of an integer (2v for v ≥ 0, -2v-1 below). -/

theorem writeBytesAt_append : ∀ (as bs : List Nat) (buf : List Nat) (off : Nat),
    writeBytesAt buf off (as ++ bs) =
      writeBytesAt (writeBytesAt buf off as) (off + as.length) bs := by
  intro as
  induction as with
  | nil => intro bs buf off; simp [writeBytesAt]
  | cons a as ih =>
    intro bs buf off
    simp only [List.cons_append, writeBytesAt, List.length_cons, List.append_eq]
    rw [ih]
    congr 1
    omega

theorem zigPat_lt {v : Int} (h1 : -1073741824 ≤ v) (h2 : v < 1073741824) :
    zigPat v < 2147483648 := by
  unfold zigPat
  split <;> omega

theorem encodeZigzag_eq_zigPat {v : Int} (h1 : -1073741824 ≤ v) (h2 : v < 1073741824) :
    VarintEncoder.encodeZigzag v = ((zigPat v : Nat) : Int) := by
  have hz := toUint32_encodeZigzag (v := v) (by omega) (by omega)
  have hpat : JsNum.toUint32 (VarintEncoder.encodeZigzag v) = zigPat v := by
    rw [hz]; unfold zigPat; rfl
  have hlt := zigPat_lt h1 h2
  have hout : VarintEncoder.encodeZigzag v =
      JsNum.ofUint32 (JsNum.toUint32 (VarintEncoder.encodeZigzag v)) := by
    unfold VarintEncoder.encodeZigzag JsNum.xor32
    rw [JsNum.toUint32_ofUint32]
    have hxlt : JsNum.toUint32 (JsNum.shl v 1) ^^^
        JsNum.toUint32 (JsNum.sar v 31) < 4294967296 := by
      have hb : (4294967296 : Nat) = 2 ^ 32 := by norm_num
      rw [hb]
      exact Nat.xor_lt_two_pow (by have := JsNum.toUint32_lt (JsNum.shl v 1); omega)
        (by have := JsNum.toUint32_lt (JsNum.sar v 31); omega)
    rw [Nat.mod_eq_of_lt hxlt]
  rw [hout, hpat]
  exact JsNum.ofUint32_small (by omega)

/-- MapCompressor.writeVarint on a finite value in the faithful range
writes the canonical chunk of the zigzag pattern. -/

theorem mc_writeVarint_num {d : Int} (h1 : -1073741824 ≤ d) (h2 : d < 1073741824)
    (buf : List Nat) (off : Nat) :
    MapCompressor.writeVarint (.num d) buf off =
      (writeBytesAt buf off (varintChunk (zigPat d)),
        off + (varintChunk (zigPat d)).length) := by
  have hstep : MapCompressor.writeVarint (.num d) buf off =
      MapCompressor.writeVarintLoop buf off (VarintEncoder.encodeZigzag d) := rfl
  rw [hstep, encodeZigzag_eq_zigPat h1 h2]
  exact mcWriteVarintLoop_eq (zigPat d) (by have := zigPat_lt h1 h2; omega) buf off

/-- Reading one canonical chunk back and un-zigzagging recovers the
delta. -/

theorem read_zig {d : Int} (h1 : -1073741824 ≤ d) (h2 : d < 1073741824)
    (buf : List Nat) (off : Nat)
    (hbytes : ∀ i, i < (varintChunk (zigPat d)).length →
      buf.getD (off + i) 0 = (varintChunk (zigPat d)).getD i 0) :
    (VarintEncoder.readVarintFast buf off).2 = off + (varintChunk (zigPat d)).length ∧
      VarintEncoder.decodeZigzag (VarintEncoder.readVarintFast buf off).1 = d := by
  have hlt := zigPat_lt h1 h2
  have h0 : JsNum.toUint32 0 = 0 := by unfold JsNum.toUint32; omega
  obtain ⟨ho, hv⟩ := readVarintLoop_spec (zigPat d) (by omega) 0 0 buf off
    (by omega) (by norm_num; omega) (by rw [h0]; norm_num) hbytes
  have hrfl : VarintEncoder.readVarintFast buf off =
      VarintEncoder.readVarintLoop buf off 0 0 := rfl
  rw [hrfl, ho]
  refine ⟨rfl, ?_⟩
  rw [h0] at hv
  norm_num at hv
  have hdz := decodeZigzag_pattern (a := (VarintEncoder.readVarintLoop buf off 0 0).1)
    (n := zigPat d) (by omega) hv
  rcases le_or_lt 0 d with hd | hd
  · have hzp : zigPat d = (2 * d).toNat := by unfold zigPat; rw [if_pos hd]
    rw [hzp] at hdz
    rw [hdz, if_pos (by omega)]
    omega
  · have hzp : zigPat d = (-2 * d - 1).toNat := by unfold zigPat; rw [if_neg (by omega)]
    rw [hzp] at hdz
    rw [hdz, if_neg (by omega)]
    omega


/-- A value whose difference from a finite number passes okJ is itself a
finite number with the difference in range. -/

theorem okJ_sub {a : JNum} {p : Int} (h : okJ (JNum.sub a (.num p)) = true) :
    ∃ v : Int, a = .num v ∧ (-1073741824 ≤ v - p ∧ v - p < 1073741824) := by
  cases a with
  | num v =>
    refine ⟨v, rfl, ?_⟩
    simp [JNum.sub, JNum.toNumber, okJ, okd] at h
    omega
  | nan => simp [JNum.sub, JNum.toNumber, okJ] at h
  | inf => simp [JNum.sub, JNum.toNumber, okJ] at h
  | ninf => simp [JNum.sub, JNum.toNumber, okJ] at h
  | undef => simp [JNum.sub, JNum.toNumber, okJ] at h

/-- The per-record encode loop writes exactly the canonical chunk stream
when every delta and id is in the faithful range. -/

theorem encodeLoop_eq : ∀ (sl : List MapCompressor.SBlock) (px py pz : Int)
    (buf : List Nat) (off : Nat),
    sblocksOk (.num px) (.num py) (.num pz) sl = true →
    MapCompressor.encodeLoop buf off (.num px) (.num py) (.num pz) sl =
      (writeBytesAt buf off (schunks px py pz sl),
        off + (schunks px py pz sl).length) := by
  intro sl
  induction sl with
  | nil => intro px py pz buf off _; simp [MapCompressor.encodeLoop, schunks, writeBytesAt]
  | cons b rest ih =>
    obtain ⟨bx, bby, bz, bid⟩ := b
    intro px py pz buf off hok
    simp only [sblocksOk, Bool.and_eq_true] at hok
    obtain ⟨⟨⟨⟨hx, hy⟩, hz⟩, hid⟩, hrest⟩ := hok
    obtain ⟨vx, rfl, hdx⟩ := okJ_sub hx
    obtain ⟨vy, rfl, hdy⟩ := okJ_sub hy
    obtain ⟨vz, rfl, hdz⟩ := okJ_sub hz
    simp only [okd, decide_eq_true_eq] at hid
    simp only [MapCompressor.encodeLoop]
    have hsubx : JNum.sub (.num vx) (.num px) = .num (vx - px) := rfl
    have hsuby : JNum.sub (.num vy) (.num py) = .num (vy - py) := rfl
    have hsubz : JNum.sub (.num vz) (.num pz) = .num (vz - pz) := rfl
    rw [hsubx, hsuby, hsubz]
    rw [mc_writeVarint_num hdx.1 hdx.2 buf off]
    rw [mc_writeVarint_num hdy.1 hdy.2]
    rw [mc_writeVarint_num hdz.1 hdz.2]
    rw [mc_writeVarint_num hid.1 hid.2]
    rw [ih vx vy vz _ _ hrest]
    simp only [schunks, JNum.raw]
    rw [writeBytesAt_append, writeBytesAt_append, writeBytesAt_append, writeBytesAt_append]
    simp only [Prod.mk.injEq, List.length_append]
    constructor
    · trivial
    · omega


/-- Splitting a contiguous byte-image hypothesis at a list append. -/

theorem bytes_split {buf : List Nat} {off : Nat} {as bs : List Nat}
    (h : ∀ i, i < (as ++ bs).length → buf.getD (off + i) 0 = (as ++ bs).getD i 0) :
    (∀ i, i < as.length → buf.getD (off + i) 0 = as.getD i 0) ∧
      (∀ i, i < bs.length → buf.getD (off + as.length + i) 0 = bs.getD i 0) := by
  constructor
  · intro i hi
    have := h i (by simp only [List.length_append]; omega)
    rw [List.getD_append as bs 0 i hi] at this
    exact this
  · intro i hi
    have := h (as.length + i) (by simp only [List.length_append]; omega)
    rw [List.getD_append_right as bs 0 (as.length + i) (by omega)] at this
    have harith : off + (as.length + i) = off + as.length + i := by omega
    have harith2 : as.length + i - as.length = i := by omega
    rw [harith, harith2] at this
    exact this

/-- Every byte of the canonical chunk stream is a byte. -/

theorem schunks_bytes : ∀ (sl : List MapCompressor.SBlock) (px py pz : Int),
    ∀ b ∈ schunks px py pz sl, b < 256 := by
  intro sl
  induction sl with
  | nil => intro px py pz b hb; simp [schunks] at hb
  | cons c rest ih =>
    intro px py pz b hb
    simp only [schunks, List.mem_append] at hb
    rcases hb with (h1 | h2 | h3 | h4 | h5)
    · exact varintChunk_bytes _ b h1
    · exact varintChunk_bytes _ b h2
    · exact varintChunk_bytes _ b h3
    · exact varintChunk_bytes _ b h4
    · exact ih c.x.raw c.y.raw c.z.raw b h5

/-- The decode loop of decodeVarintDelta inverts the canonical chunk
stream, emitting each block at its absolute coordinates. -/

theorem decodeGo_inv : ∀ (sl : List MapCompressor.SBlock) (px py pz : Int)
    (buf : List Nat) (off : Nat) (mx my mz : Int) (b4 b5 b6 : JNum),
    sblocksOk (.num px) (.num py) (.num pz) sl = true →
    (∀ i, i < (schunks px py pz sl).length →
      buf.getD (off + i) 0 = (schunks px py pz sl).getD i 0) →
    MapDecompressor.decodeVarintDeltaGo buf (some ⟨.num mx, .num my, .num mz, b4, b5, b6⟩)
        sl.length off px py pz =
      sl.map (fun b => (renderKey (.num (b.x.raw + mx)) (.num (b.y.raw + my))
        (.num (b.z.raw + mz)), JNum.num b.id)) := by
  intro sl
  induction sl with
  | nil => intro px py pz buf off mx my mz b4 b5 b6 _ _; rfl
  | cons b rest ih =>
    obtain ⟨bx, bby, bz, bid⟩ := b
    intro px py pz buf off mx my mz b4 b5 b6 hok hbytes
    simp only [sblocksOk, Bool.and_eq_true] at hok
    obtain ⟨⟨⟨⟨hx, hy⟩, hz⟩, hid⟩, hrest⟩ := hok
    obtain ⟨vx, rfl, hdx⟩ := okJ_sub hx
    obtain ⟨vy, rfl, hdy⟩ := okJ_sub hy
    obtain ⟨vz, rfl, hdz⟩ := okJ_sub hz
    simp only [okd, decide_eq_true_eq] at hid
    simp only [schunks, JNum.raw] at hbytes
    obtain ⟨hbx1, hrest1⟩ := bytes_split hbytes
    obtain ⟨hby1, hrest2⟩ := bytes_split hrest1
    obtain ⟨hbz1, hrest3⟩ := bytes_split hrest2
    obtain ⟨hbi1, hrest4⟩ := bytes_split hrest3
    obtain ⟨hoffx, hvalx⟩ := read_zig hdx.1 hdx.2 buf off hbx1
    obtain ⟨hoffy, hvaly⟩ := read_zig hdy.1 hdy.2 buf
      (off + (varintChunk (zigPat (vx - px))).length) hby1
    obtain ⟨hoffz, hvalz⟩ := read_zig hdz.1 hdz.2 buf
      (off + (varintChunk (zigPat (vx - px))).length +
        (varintChunk (zigPat (vy - py))).length) hbz1
    obtain ⟨hoffi, hvali⟩ := read_zig hid.1 hid.2 buf
      (off + (varintChunk (zigPat (vx - px))).length +
        (varintChunk (zigPat (vy - py))).length +
        (varintChunk (zigPat (vz - pz))).length) hbi1
    simp only [List.length_cons, MapDecompressor.decodeVarintDeltaGo]
    rw [hoffx, hvalx, hoffy, hvaly, hoffz, hvalz, hoffi, hvali]
    simp only [MapDecompressor.boundsMinX, MapDecompressor.boundsMinY,
      MapDecompressor.boundsMinZ, orElse_num_zero, add_num_num]
    have hsx : px + (vx - px) = vx := by ring
    have hsy : py + (vy - py) = vy := by ring
    have hsz : pz + (vz - pz) = vz := by ring
    rw [hsx, hsy, hsz]
    simp only [List.map_cons, List.cons.injEq, JNum.raw]
    constructor
    · trivial
    · have := ih vx vy vz buf
        (off + (varintChunk (zigPat (vx - px))).length +
          (varintChunk (zigPat (vy - py))).length +
          (varintChunk (zigPat (vz - pz))).length +
          (varintChunk (zigPat bid)).length) mx my mz b4 b5 b6 hrest hrest4
      exact this


/-- Unpacking a canonical key: it parses to three finite integers and is
their canonical rendering. -/

theorem canonicalKey_spec {k : List Char} (h : canonicalKey k = true) :
    ∃ x y z : Int, parseKey k = (.num x, .num y, .num z) ∧
      k = renderKey (.num x) (.num y) (.num z) := by
  unfold canonicalKey at h
  rcases hp : parseKey k with ⟨a, b, c⟩
  rw [hp] at h
  cases a <;> cases b <;> cases c <;> simp only [] at h <;>
    first
    | exact absurd h (by decide)
    | (simp only [decide_eq_true_eq] at h
       exact ⟨_, _, _, rfl, h⟩)

/-- Math.min of two finite numbers. -/

theorem min2_num_num (a x : Int) : JNum.min2 (.num a) (.num x) = .num (min a x) := rfl

/-- Math.min seeded with Infinity. -/

theorem min2_inf_num (x : Int) : JNum.min2 .inf (.num x) = .num x := rfl

/-- Along the bounds fold of compress, finite minima stay finite when
every key is canonical. -/

theorem calcFold_min_num : ∀ (bl : List (List Char × Int)) (acc : JBounds),
    (∀ kv ∈ bl, canonicalKey kv.1 = true) →
    (∃ a, acc.minX = .num a) → (∃ b, acc.minY = .num b) → (∃ c, acc.minZ = .num c) →
    (∃ mx, (bl.foldl (fun acc kv =>
      let t := parseKey kv.1
      ⟨JNum.min2 acc.minX t.1, JNum.min2 acc.minY t.2.1, JNum.min2 acc.minZ t.2.2,
        JNum.max2 acc.maxX t.1, JNum.max2 acc.maxY t.2.1, JNum.max2 acc.maxZ t.2.2⟩)
      acc).minX = .num mx) ∧
    (∃ my, (bl.foldl (fun acc kv =>
      let t := parseKey kv.1
      ⟨JNum.min2 acc.minX t.1, JNum.min2 acc.minY t.2.1, JNum.min2 acc.minZ t.2.2,
        JNum.max2 acc.maxX t.1, JNum.max2 acc.maxY t.2.1, JNum.max2 acc.maxZ t.2.2⟩)
      acc).minY = .num my) ∧
    (∃ mz, (bl.foldl (fun acc kv =>
      let t := parseKey kv.1
      ⟨JNum.min2 acc.minX t.1, JNum.min2 acc.minY t.2.1, JNum.min2 acc.minZ t.2.2,
        JNum.max2 acc.maxX t.1, JNum.max2 acc.maxY t.2.1, JNum.max2 acc.maxZ t.2.2⟩)
      acc).minZ = .num mz) := by
  intro bl
  induction bl with
  | nil =>
    intro acc _ h1 h2 h3
    exact ⟨h1, h2, h3⟩
  | cons kv rest ih =>
    intro acc hk ⟨a, ha⟩ ⟨b, hb⟩ ⟨c, hc⟩
    obtain ⟨x, y, z, hp, _⟩ := canonicalKey_spec (hk kv (List.mem_cons_self kv rest))
    simp only [List.foldl_cons]
    apply ih _ (fun kv2 h2 => hk kv2 (List.mem_cons_of_mem kv h2))
    · refine ⟨min a x, ?_⟩
      simp only [hp, ha, min2_num_num]
    · refine ⟨min b y, ?_⟩
      simp only [hp, hb, min2_num_num]
    · refine ⟨min c z, ?_⟩
      simp only [hp, hc, min2_num_num]

/-- The bounds minima compress computes for a non-empty map with
canonical keys are finite integers. -/

theorem calcBounds_min_num (bl : List (List Char × Int))
    (hk : ∀ kv ∈ bl, canonicalKey kv.1 = true) (hne : bl ≠ []) :
    ∃ mx my mz : Int, (MapCompressor.calculateBounds bl).minX = .num mx ∧
      (MapCompressor.calculateBounds bl).minY = .num my ∧
      (MapCompressor.calculateBounds bl).minZ = .num mz := by
  match bl, hne with
  | kv :: rest, _ =>
    obtain ⟨x, y, z, hp, _⟩ := canonicalKey_spec (hk kv (List.mem_cons_self kv rest))
    unfold MapCompressor.calculateBounds
    simp only [List.foldl_cons]
    have hstep := calcFold_min_num rest
      ⟨JNum.min2 .inf (parseKey kv.1).1, JNum.min2 .inf (parseKey kv.1).2.1,
        JNum.min2 .inf (parseKey kv.1).2.2, JNum.max2 .ninf (parseKey kv.1).1,
        JNum.max2 .ninf (parseKey kv.1).2.1, JNum.max2 .ninf (parseKey kv.1).2.2⟩
      (fun kv2 h2 => hk kv2 (List.mem_cons_of_mem kv h2))
      (by simp only [hp, min2_inf_num]; exact ⟨x, rfl⟩)
      (by simp only [hp, min2_inf_num]; exact ⟨y, rfl⟩)
      (by simp only [hp, min2_inf_num]; exact ⟨z, rfl⟩)
    obtain ⟨⟨mx, hmx⟩, ⟨my, hmy⟩, ⟨mz, hmz⟩⟩ := hstep
    exact ⟨mx, my, mz, hmx, hmy, hmz⟩

/-- Assigning a fresh key appends the pair. -/

theorem objSet_fresh {α : Type} : ∀ (l : List (List Char × α)) (k : List Char) (v : α),
    k ∉ l.map Prod.fst → objSet l k v = l ++ [(k, v)] := by
  intro l
  induction l with
  | nil => intro k v _; rfl
  | cons e t ih =>
    intro k v hk
    simp only [List.map_cons, List.mem_cons] at hk
    push_neg at hk
    simp only [objSet]
    rw [if_neg (fun hc => hk.1 hc.symm)]
    rw [ih k v hk.2]
    rfl

/-- Building an object from entries with pairwise distinct keys keeps
them all in order. -/

theorem objInsertAll_nodup {α : Type} : ∀ (recs acc : List (List Char × α)),
    ((acc ++ recs).map Prod.fst).Nodup → objInsertAll acc recs = acc ++ recs := by
  intro recs
  induction recs with
  | nil => intro acc _; simp [objInsertAll]
  | cons r rest ih =>
    intro acc hnd
    have hstep : objInsertAll acc (r :: rest) = objInsertAll (objSet acc r.1 r.2) rest := rfl
    have hfresh : r.1 ∉ acc.map Prod.fst := by
      intro hmem
      rw [List.map_append, List.nodup_append] at hnd
      exact hnd.2.2 hmem (List.mem_map_of_mem Prod.fst (List.mem_cons_self r rest))
    rw [hstep, objSet_fresh acc r.1 r.2 hfresh]
    have hre : acc ++ [(r.1, r.2)] ++ rest = acc ++ r :: rest := by simp
    rw [ih (acc ++ [(r.1, r.2)]) (by rw [hre]; exact hnd), hre]

/-- readUInt32LE at offset 0 recovers the record count written by
writeUInt32LE. -/

theorem readUInt32LE_hdr (n : Nat) (hn : n < 4294967296) (L : List Nat) :
    MapDecompressor.readUInt32LE (MapCompressor.toBytesLE4 n ++ L) 0 = n := by
  simp only [MapDecompressor.readUInt32LE, MapCompressor.toBytesLE4, List.cons_append,
    List.nil_append, List.getD_cons_zero, List.getD_cons_succ]
  omega

/-- Reading past the 4-byte header lands in the payload. -/

theorem getD_hdr (n : Nat) (L : List Nat) (i : Nat) :
    (MapCompressor.toBytesLE4 n ++ L).getD (4 + i) 0 = L.getD i 0 := by
  have h : 4 + i = i + 4 := by omega
  simp only [MapCompressor.toBytesLE4, List.cons_append, List.nil_append, h,
    List.getD_cons_succ]

theorem toBytesLE4_bytes (n : Nat) : ∀ b ∈ MapCompressor.toBytesLE4 n, b < 256 := by
  intro b hb
  simp only [MapCompressor.toBytesLE4, List.mem_cons, List.not_mem_nil, or_false] at hb
  rcases hb with h | h | h | h <;> omega

/-- Buffer base64 through Char codepoints round-trips on byte lists. -/

theorem char_toNat_ofNat {b : Nat} (h : b < 256) : (Char.ofNat b).toNat = b := by
  have hv : Nat.isValidChar b := Or.inl (by omega)
  unfold Char.ofNat
  rw [dif_pos hv]
  show (UInt32.mk (BitVec.ofNatLt b _)).toNat = b
  simp [UInt32.toNat, BitVec.toNat_ofNatLt]

theorem map_toNat_ofNat : ∀ (d : List Nat), (∀ b ∈ d, b < 256) →
    (d.map Char.ofNat).map Char.toNat = d := by
  intro d
  induction d with
  | nil => intro _; rfl
  | cons b t ih =>
    intro hb
    simp only [List.map_cons, List.cons.injEq]
    exact ⟨char_toNat_ofNat (hb b (List.mem_cons_self b t)),
      ih (fun x hx => hb x (List.mem_cons_of_mem b hx))⟩


/-- The successful shape of compress: for a non-empty, not oversized map
it returns the base64-wrapped header-plus-payload and the computed
bounds. -/

theorem compress_shape (ext : ExternalBackends) (opts : CompressionOpts)
    (mapData : MapData) (h1 : 1 ≤ mapData.blocks.length)
    (h2 : mapData.blocks.length < 4294967296) :
    MapCompressor.compress ext opts mapData = Except.ok
      { data := BrotliWrapper.compressToBase64 ext
          ((MapCompressor.encodeLoop
            (writeBytesAt (List.replicate ((shiftedSorted mapData.blocks).length * 15) 0) 0
              (MapCompressor.toBytesLE4 (shiftedSorted mapData.blocks).length))
            4 (.num 0) (.num 0) (.num 0) (shiftedSorted mapData.blocks)).1.take
            (MapCompressor.encodeLoop
              (writeBytesAt (List.replicate ((shiftedSorted mapData.blocks).length * 15) 0) 0
                (MapCompressor.toBytesLE4 (shiftedSorted mapData.blocks).length))
              4 (.num 0) (.num 0) (.num 0) (shiftedSorted mapData.blocks)).2)
          opts.algorithm (if opts.level = 0 then 9 else opts.level),
        blockTypesPresent := true,
        bounds := MapCompressor.calculateBounds mapData.blocks,
        version := ['1', '.', '0', '.', '0'],
        blockCount := mapData.blocks.length } := by
  simp only [MapCompressor.compress, shiftedSorted]
  rw [if_neg]
  simp only [List.length_mergeSort, List.length_map]
  omega

end MapCodec

/-- Claim C8: for every sequence of block ids (non-negative, as the data
model requires), DeltaEncoder.decodeBlockIds applied to the output
(encoded, isRLE) of DeltaEncoder.encodeBlockIds returns the original
sequence; runs of length > 2 are represented as a (-count, id) marker,
runs of length ≤ 2 are emitted literally, and when the transform is not
strictly shorter the literal sequence is returned with isRLE = false. -/
theorem C8_rle_roundtrip :
    (∀ ids : List Int, (∀ x ∈ ids, 0 ≤ x) →
      MapCodec.DeltaEncoder.decodeBlockIds (MapCodec.DeltaEncoder.encodeBlockIds ids).1
        (MapCodec.DeltaEncoder.encodeBlockIds ids).2 = ids.map MapCodec.JNum.num) ∧
    (∀ (id : Int) (n : Nat), 2 < n →
      MapCodec.DeltaEncoder.encodeBlockIdsGo (List.replicate n id) = [-(n : Int), id]) ∧
    (∀ (id : Int) (n : Nat), n ≤ 2 →
      MapCodec.DeltaEncoder.encodeBlockIdsGo (List.replicate n id) =
        List.replicate n id) ∧
    (∀ ids : List Int, (MapCodec.DeltaEncoder.encodeBlockIds ids).2 = false →
      (MapCodec.DeltaEncoder.encodeBlockIds ids).1 = ids) := by
  refine ⟨?_, ?_, ?_, ?_⟩
  · intro ids hnn
    by_cases hr : (MapCodec.DeltaEncoder.encodeBlockIdsGo ids).length < ids.length
    · have hmain := MapCodec.decodeGo_encodeGo ids.length ids le_rfl hnn
      simp [MapCodec.DeltaEncoder.encodeBlockIds,
        MapCodec.DeltaEncoder.decodeBlockIds, hr, hmain]
    · simp [MapCodec.DeltaEncoder.encodeBlockIds,
        MapCodec.DeltaEncoder.decodeBlockIds, hr]
  · intro id n hn
    obtain ⟨m, rfl⟩ : ∃ m, n = m + 1 := ⟨n - 1, by omega⟩
    rw [List.replicate_succ]
    simp only [MapCodec.DeltaEncoder.encodeBlockIdsGo,
      MapCodec.takeWhile_replicate_self, List.length_replicate]
    rw [if_pos (by omega)]
    have hd : (List.replicate m id).drop (1 + m - 1) = [] := by
      have hle : (List.replicate m id).length ≤ 1 + m - 1 := by
        simp only [List.length_replicate]
        omega
      exact List.drop_eq_nil_of_le hle
    rw [hd]
    rw [show MapCodec.DeltaEncoder.encodeBlockIdsGo [] = [] from by
      rw [MapCodec.DeltaEncoder.encodeBlockIdsGo]]
    rw [List.append_nil]
    rw [show ((1 + m : Nat) : Int) = ((m + 1 : Nat) : Int) from by omega]
  · intro id n hn
    match n, hn with
    | 0, _ =>
      rw [show List.replicate 0 id = ([] : List Int) from rfl]
      rw [MapCodec.DeltaEncoder.encodeBlockIdsGo]
    | (m + 1), hn =>
      rw [List.replicate_succ]
      simp only [MapCodec.DeltaEncoder.encodeBlockIdsGo,
        MapCodec.takeWhile_replicate_self, List.length_replicate]
      rw [if_neg (by omega)]
      have hd : (List.replicate m id).drop (1 + m - 1) = [] := by
        have hle : (List.replicate m id).length ≤ 1 + m - 1 := by
          simp only [List.length_replicate]
          omega
        exact List.drop_eq_nil_of_le hle
      rw [hd]
      rw [show MapCodec.DeltaEncoder.encodeBlockIdsGo [] = [] from by
        rw [MapCodec.DeltaEncoder.encodeBlockIdsGo]]
      rw [List.append_nil]
      rw [show (1 + m : Nat) = m + 1 from by omega]
      rw [List.replicate_succ]
  · intro ids h
    by_cases hr : (MapCodec.DeltaEncoder.encodeBlockIdsGo ids).length < ids.length
    · simp [MapCodec.DeltaEncoder.encodeBlockIds, hr] at h
    · simp [MapCodec.DeltaEncoder.encodeBlockIds, hr]

/-- Claim C6: for every 32-bit signed integer v (including 0, -1, 1, 127,
128, -128, 2147483647 and -2147483648),
VarintEncoder.decodeZigzag (VarintEncoder.encodeZigzag v) = v; and the
zigzag map sends 0 to 0, -1 to 1, 1 to 2, -2 to 3. -/

theorem C6_zigzag_roundtrip :
    (∀ v : Int, -2147483648 ≤ v → v < 2147483648 →
      MapCodec.VarintEncoder.decodeZigzag (MapCodec.VarintEncoder.encodeZigzag v) = v) ∧
    MapCodec.VarintEncoder.encodeZigzag 0 = 0 ∧
    MapCodec.VarintEncoder.encodeZigzag (-1) = 1 ∧
    MapCodec.VarintEncoder.encodeZigzag 1 = 2 ∧
    MapCodec.VarintEncoder.encodeZigzag (-2) = 3 := by
  refine ⟨fun v h1 h2 => MapCodec.decodeZigzag_encodeZigzag h1 h2, ?_, ?_, ?_, ?_⟩ <;> decide

/-- Witness for C6 at the boundary values -2147483648 and 2147483647. -/

theorem C6_zigzag_roundtrip_witness :
    MapCodec.VarintEncoder.decodeZigzag
      (MapCodec.VarintEncoder.encodeZigzag (-2147483648)) = -2147483648 ∧
    MapCodec.VarintEncoder.decodeZigzag
      (MapCodec.VarintEncoder.encodeZigzag 2147483647) = 2147483647 :=
  ⟨C6_zigzag_roundtrip.1 (-2147483648) (by norm_num) (by norm_num),
    C6_zigzag_roundtrip.1 2147483647 (by norm_num) (by norm_num)⟩

/-- Claim C7: for every 32-bit signed integer v (including INT32_MIN and
INT32_MAX), writing v's zigzag encoding with VarintEncoder.writeVarint
into a sufficiently large buffer and reading it back with
VarintEncoder.readVarint at the same offset returns the written value
(after un-zigzagging), consuming exactly the bytes written. -/

theorem C7_varint_write_read :
    ∀ (v : Int) (buffer : List Nat) (offset : Nat),
      -2147483648 ≤ v → v < 2147483648 → offset + 5 ≤ buffer.length →
      MapCodec.VarintEncoder.decodeZigzag
        (MapCodec.VarintEncoder.readVarint
          (MapCodec.VarintEncoder.writeVarint buffer offset
            (MapCodec.VarintEncoder.encodeZigzag v)).1 offset).1 = v ∧
      offset + (MapCodec.VarintEncoder.readVarint
          (MapCodec.VarintEncoder.writeVarint buffer offset
            (MapCodec.VarintEncoder.encodeZigzag v)).1 offset).2 =
        (MapCodec.VarintEncoder.writeVarint buffer offset
          (MapCodec.VarintEncoder.encodeZigzag v)).2 := by
  intro v buffer offset h1 h2 hroom
  set z := MapCodec.VarintEncoder.encodeZigzag v with hz
  set n := MapCodec.JsNum.toUint32 z with hn
  have hnlt : n < 4294967296 := MapCodec.JsNum.toUint32_lt z
  have hw : MapCodec.VarintEncoder.writeVarint buffer offset z =
      (MapCodec.writeBytesAt buffer offset (MapCodec.varintChunk n),
        offset + (MapCodec.varintChunk n).length) := by
    unfold MapCodec.VarintEncoder.writeVarint
    rw [← hn]
    exact MapCodec.writeVarintLoop_eq n hnlt buffer offset
  have hlen5 := MapCodec.varintChunk_length_le_five hnlt
  have hbytes : ∀ i, i < (MapCodec.varintChunk n).length →
      (MapCodec.writeBytesAt buffer offset (MapCodec.varintChunk n)).getD (offset + i) 0 =
        (MapCodec.varintChunk n).getD i 0 := by
    intro i hi
    exact MapCodec.writeBytesAt_getD_in (MapCodec.varintChunk n) buffer offset i hi
      (by omega)
  have h0 : MapCodec.JsNum.toUint32 0 = 0 := by
    unfold MapCodec.JsNum.toUint32
    omega
  obtain ⟨hoff, hval⟩ := MapCodec.readVarintLoop_spec n hnlt 0 0
    (MapCodec.writeBytesAt buffer offset (MapCodec.varintChunk n)) offset
    (by omega) (by norm_num; omega) (by rw [h0]; norm_num) hbytes
  rw [hw]
  unfold MapCodec.VarintEncoder.readVarint
  simp only
  constructor
  · have htu : MapCodec.JsNum.toUint32
        (MapCodec.VarintEncoder.readVarintLoop
          (MapCodec.writeBytesAt buffer offset (MapCodec.varintChunk n)) offset 0 0).1 =
        MapCodec.JsNum.toUint32 z := by
      rw [hval, h0, pow_zero, mul_one, hn]
      omega
    rw [MapCodec.decodeZigzag_congr htu, hz]
    exact MapCodec.decodeZigzag_encodeZigzag h1 h2
  · rw [hoff]
    omega

/-- Witness for C7: the spec's worked value -150 (zigzag 299, two bytes)
written into an 8-byte buffer at offset 0. -/

theorem C7_varint_write_read_witness :
    MapCodec.VarintEncoder.decodeZigzag
      (MapCodec.VarintEncoder.readVarint
        (MapCodec.VarintEncoder.writeVarint (List.replicate 8 0) 0
          (MapCodec.VarintEncoder.encodeZigzag (-150))).1 0).1 = -150 ∧
    0 + (MapCodec.VarintEncoder.readVarint
        (MapCodec.VarintEncoder.writeVarint (List.replicate 8 0) 0
          (MapCodec.VarintEncoder.encodeZigzag (-150))).1 0).2 =
      (MapCodec.VarintEncoder.writeVarint (List.replicate 8 0) 0
        (MapCodec.VarintEncoder.encodeZigzag (-150))).2 :=
  C7_varint_write_read (-150) (List.replicate 8 0) 0 (by norm_num) (by norm_num)
    (by simp)

/-- Claim C10: DeltaEncoder.encodePositions on the empty map returns empty
delta and block-id sequences together with all-zero bounds rather than
infinite sentinels, and DeltaEncoder.decodePositions on that output
returns the empty map. -/

theorem C10_empty_positions :
    MapCodec.DeltaEncoder.encodePositions [] = ([], [], MapCodec.zeroJBounds) ∧
    MapCodec.DeltaEncoder.decodePositions [] [] Option.none = [] := by
  constructor
  · simp only [MapCodec.DeltaEncoder.encodePositions,
      MapCodec.DeltaEncoder.sortBlocksSpatially, List.map_nil, List.mergeSort_nil]
    rfl
  · rfl


/-- Claim C2: the delta-only decode path (decodeDeltaOnly via
DeltaEncoder.decodePositions) does not re-add the artifact's bounds
minimum (the bounds argument is ignored and the whole decompress result
on that path is independent of the artifact's bounds field), while
decodeVarintDelta adds the bounds minima (minX, minY, minZ) to each
accumulated axis sum before emitting the record. -/

theorem C2_bounds_asymmetry :
    (∀ (deltas blockIds : List MapCodec.JNum) (b1 b2 : Option MapCodec.JBounds),
      MapCodec.DeltaEncoder.decodePositions deltas blockIds b1 =
        MapCodec.DeltaEncoder.decodePositions deltas blockIds b2) ∧
    (∀ (ext : MapCodec.ExternalBackends) (a : MapCodec.CompressedMapData)
      (b' : Option MapCodec.JBounds),
      MapCodec.MapDecompressor.optUseDelta a = true →
      MapCodec.MapDecompressor.optUseVarint a = false →
      MapCodec.MapDecompressor.decompress ext a =
        MapCodec.MapDecompressor.decompress ext {a with bounds := b'}) ∧
    (∀ (buffer : List Nat) (bb : MapCodec.JBounds) (mx my mz : Int)
      (cnt off : Nat) (lx ly lz : Int),
      bb.minX = MapCodec.JNum.num mx → bb.minY = MapCodec.JNum.num my →
      bb.minZ = MapCodec.JNum.num mz →
      MapCodec.MapDecompressor.decodeVarintDeltaGo buffer (some bb) cnt off lx ly lz =
        MapCodec.shiftedSumRecords buffer mx my mz cnt off lx ly lz) := by
  refine ⟨?_, ?_, ?_⟩
  · intro deltas blockIds b1 b2
    rfl
  · intro ext a b' hd hv
    have e1 : MapCodec.MapDecompressor.requiredFieldsOk {a with bounds := b'} =
        MapCodec.MapDecompressor.requiredFieldsOk a := rfl
    have e2 : MapCodec.MapDecompressor.optUseDelta {a with bounds := b'} =
        MapCodec.MapDecompressor.optUseDelta a := rfl
    have e3 : MapCodec.MapDecompressor.optUseVarint {a with bounds := b'} =
        MapCodec.MapDecompressor.optUseVarint a := rfl
    simp only [MapCodec.MapDecompressor.decompress, e1, e2, e3, hd, hv,
      Bool.and_false, Bool.false_eq_true, if_false, if_true]
  · intro buffer bb mx my mz cnt off lx ly lz hx hy hz
    exact MapCodec.decodeVarintDeltaGo_num_bounds buffer bb mx my mz hx hy hz cnt off lx ly lz

/-- Witness for C2: concrete instances of all three conjuncts. -/

theorem C2_bounds_asymmetry_witness :
    MapCodec.MapDecompressor.decompress MapCodec.idBackends
      { version := some ['1'], algorithm := some MapCodec.Alg.none,
        data := some ['a'], blockTypes := true, bounds := Option.none,
        entities := false, options := some ⟨true, false⟩ } =
      MapCodec.MapDecompressor.decompress MapCodec.idBackends
        { version := some ['1'], algorithm := some MapCodec.Alg.none,
          data := some ['a'], blockTypes := true,
          bounds := some ⟨.num 7, .num 8, .num 9, .num 0, .num 0, .num 0⟩,
          entities := false, options := some ⟨true, false⟩ } ∧
    MapCodec.MapDecompressor.decodeVarintDeltaGo [2, 0, 0, 0, 4, 0, 2, 6]
        (some ⟨.num 7, .num 8, .num 9, .num 0, .num 0, .num 0⟩) 2 4 0 0 0 =
      MapCodec.shiftedSumRecords [2, 0, 0, 0, 4, 0, 2, 6] 7 8 9 2 4 0 0 0 := by
  constructor
  · exact C2_bounds_asymmetry.2.1 MapCodec.idBackends
      { version := some ['1'], algorithm := some MapCodec.Alg.none,
        data := some ['a'], blockTypes := true, bounds := Option.none,
        entities := false, options := some ⟨true, false⟩ }
      (some ⟨.num 7, .num 8, .num 9, .num 0, .num 0, .num 0⟩) rfl rfl
  · exact C2_bounds_asymmetry.2.2 [2, 0, 0, 0, 4, 0, 2, 6]
      ⟨.num 7, .num 8, .num 9, .num 0, .num 0, .num 0⟩ 7 8 9 2 4 0 0 0 rfl rfl rfl

/-- Claim C9 (implicit): on the delta+varint decode path an artifact with
an absent bounds field decodes without error; each bounds minimum is
treated as 0, so the emitted coordinates are exactly the raw accumulated
delta sums, and the required-field validation does not look at bounds. -/

theorem C9_missing_bounds :
    (∀ buffer : List Nat,
      MapCodec.MapDecompressor.decodeVarintDelta buffer Option.none =
        MapCodec.MapDecompressor.decodeVarintDelta buffer (some MapCodec.zeroJBounds)) ∧
    (∀ (a : MapCodec.CompressedMapData) (b' : Option MapCodec.JBounds),
      MapCodec.MapDecompressor.requiredFieldsOk {a with bounds := b'} =
        MapCodec.MapDecompressor.requiredFieldsOk a) ∧
    (∀ (buffer : List Nat) (cnt off : Nat) (lx ly lz : Int),
      MapCodec.MapDecompressor.decodeVarintDeltaGo buffer Option.none cnt off lx ly lz =
        MapCodec.rawSumRecords buffer cnt off lx ly lz) ∧
    (∀ buffer : List Nat, 4 ≤ buffer.length →
      ∃ l, MapCodec.MapDecompressor.decodeVarintDelta buffer Option.none =
        Except.ok l) := by
  refine ⟨?_, ?_, ?_, ?_⟩
  · intro buffer
    unfold MapCodec.MapDecompressor.decodeVarintDelta
    rw [MapCodec.decodeVarintDeltaGo_none_raw, MapCodec.decodeVarintDeltaGo_zero_raw]
  · intro a b'
    rfl
  · intro buffer cnt off lx ly lz
    exact MapCodec.decodeVarintDeltaGo_none_raw buffer cnt off lx ly lz
  · intro buffer hlen
    unfold MapCodec.MapDecompressor.decodeVarintDelta
    rw [if_neg (by omega)]
    exact ⟨_, rfl⟩

/-- Witness for C9: a concrete 4-byte buffer (record count 0). -/

theorem C9_missing_bounds_witness :
    ∃ l, MapCodec.MapDecompressor.decodeVarintDelta [0, 0, 0, 0] Option.none =
      Except.ok l :=
  C9_missing_bounds.2.2.2 [0, 0, 0, 0] (by simp)

/-- Claim C3 counterexample: the truncated buffer [1,0,0,0] declares one
record but has no payload; decodeVarintDelta does not raise a DecodeError
but silently produces the garbage record ("0,0,0" at block id 0). -/

theorem C3_counterexample :
    MapCodec.MapDecompressor.decodeVarintDelta [1, 0, 0, 0] Option.none =
      Except.ok [(['0', ',', '0', ',', '0'], MapCodec.JNum.num 0)] := by
  unfold MapCodec.MapDecompressor.decodeVarintDelta
  rw [if_neg (by simp)]
  have hcount : MapCodec.MapDecompressor.readUInt32LE [1, 0, 0, 0] 0 = 1 := by
    simp [MapCodec.MapDecompressor.readUInt32LE]
  rw [hcount]
  have hjs : ∀ s : Nat, MapCodec.JsNum.or32 0 (MapCodec.JsNum.shl 0 s) = 0 := by
    intro s
    simp [MapCodec.JsNum.or32, MapCodec.JsNum.shl, MapCodec.JsNum.toUint32,
      MapCodec.JsNum.ofUint32]
  have hread : MapCodec.VarintEncoder.readVarintLoop [1, 0, 0, 0] 4 0 0 = (0, 5) := by
    rw [MapCodec.VarintEncoder.readVarintLoop]
    norm_num [hjs 0]
  have hread5 : MapCodec.VarintEncoder.readVarintLoop [1, 0, 0, 0] 5 0 0 = (0, 6) := by
    rw [MapCodec.VarintEncoder.readVarintLoop]
    norm_num [hjs 0]
  have hread6 : MapCodec.VarintEncoder.readVarintLoop [1, 0, 0, 0] 6 0 0 = (0, 7) := by
    rw [MapCodec.VarintEncoder.readVarintLoop]
    norm_num [hjs 0]
  have hread7 : MapCodec.VarintEncoder.readVarintLoop [1, 0, 0, 0] 7 0 0 = (0, 8) := by
    rw [MapCodec.VarintEncoder.readVarintLoop]
    norm_num [hjs 0]
  simp [MapCodec.MapDecompressor.decodeVarintDeltaGo,
    MapCodec.VarintEncoder.readVarintFast, hread, hread5, hread6, hread7,
    MapCodec.VarintEncoder.decodeZigzag, MapCodec.JsNum.shrU, MapCodec.JsNum.and32,
    MapCodec.JsNum.xor32, MapCodec.JsNum.toUint32, MapCodec.JsNum.ofUint32,
    MapCodec.MapDecompressor.boundsMinX, MapCodec.MapDecompressor.boundsMinY,
    MapCodec.MapDecompressor.boundsMinZ, MapCodec.JNum.orElse, MapCodec.JNum.truthy,
    MapCodec.JNum.add, MapCodec.JNum.toNumber, MapCodec.renderKey, MapCodec.render,
    MapCodec.renderInt, MapCodec.natDigits, MapCodec.digitToChar, MapCodec.objInsertAll,
    MapCodec.objSet]

/-- Claim C3 amended: no decode path raises a DecodeError.  The only
bounds check is readUInt32LE, which raises a RangeError exactly when the
buffer holds fewer than 4 bytes; past that, out-of-range reads are
treated as byte 0 and decoding silently produces garbage records, and the
delta-only and direct paths never raise at all. -/

theorem C3_amended :
    (∀ (buffer : List Nat) (b : Option MapCodec.JBounds),
      MapCodec.MapDecompressor.decodeVarintDelta buffer b =
        Except.error MapCodec.JsErr.rangeErr ↔ buffer.length < 4) ∧
    (∀ (ext : MapCodec.ExternalBackends) (a : MapCodec.CompressedMapData),
      MapCodec.MapDecompressor.requiredFieldsOk a = true →
      MapCodec.MapDecompressor.optUseDelta a = true →
      MapCodec.MapDecompressor.optUseVarint a = false →
      ∃ r, MapCodec.MapDecompressor.decompress ext a = Except.ok r) ∧
    (∀ (ext : MapCodec.ExternalBackends) (a : MapCodec.CompressedMapData),
      MapCodec.MapDecompressor.requiredFieldsOk a = true →
      MapCodec.MapDecompressor.optUseDelta a = false →
      ∃ r, MapCodec.MapDecompressor.decompress ext a = Except.ok r) ∧
    (∀ (buffer : List Nat) (b : Option MapCodec.JBounds), 4 ≤ buffer.length →
      ∃ l, MapCodec.MapDecompressor.decodeVarintDelta buffer b = Except.ok l) := by
  refine ⟨?_, ?_, ?_, ?_⟩
  · intro buffer b
    unfold MapCodec.MapDecompressor.decodeVarintDelta
    by_cases h : buffer.length < 4
    · simp [h]
    · simp [h]
  · intro ext a hreq hd hv
    unfold MapCodec.MapDecompressor.decompress
    rw [hreq]
    simp only [Bool.true_eq_false, if_false, hd, hv, Bool.and_false,
      Bool.false_eq_true, if_true]
    exact ⟨_, rfl⟩
  · intro ext a hreq hd
    unfold MapCodec.MapDecompressor.decompress
    rw [hreq]
    simp only [Bool.true_eq_false, if_false, hd, Bool.false_and,
      Bool.false_eq_true, if_false]
    exact ⟨_, rfl⟩
  · intro buffer b hlen
    unfold MapCodec.MapDecompressor.decodeVarintDelta
    rw [if_neg (by omega)]
    exact ⟨_, rfl⟩

/-- Witness for C3 amended: concrete instances. -/

theorem C3_amended_witness :
    (MapCodec.MapDecompressor.decodeVarintDelta [1, 0] Option.none =
      Except.error MapCodec.JsErr.rangeErr) ∧
    ∃ l, MapCodec.MapDecompressor.decodeVarintDelta [5, 0, 0, 0, 1] Option.none =
      Except.ok l :=
  ⟨(C3_amended.1 [1, 0] Option.none).mpr (by simp),
    C3_amended.2.2.2 [5, 0, 0, 0, 1] Option.none (by simp)⟩

/-- Claim C5 counterexample: an artifact with version, data and
blockTypes present but no algorithm field is not rejected; decompress
proceeds (the algorithm defaults to brotli) and returns a result. -/

theorem C5_counterexample :
    MapCodec.MapDecompressor.decompress MapCodec.idBackends
      { version := some ['1'], algorithm := Option.none, data := some ['x'],
        blockTypes := true, bounds := Option.none, entities := false,
        options := Option.none } =
      Except.ok ⟨[], true, false, 0⟩ := by
  rfl

/-- Claim C5 amended: decompress raises its format error exactly when
version, data or blockTypes is absent/falsy; the algorithm field is not
validated, and an absent algorithm behaves identically to brotli. -/

theorem C5_amended :
    (∀ (ext : MapCodec.ExternalBackends) (a : MapCodec.CompressedMapData),
      MapCodec.MapDecompressor.decompress ext a =
        Except.error MapCodec.JsErr.invalidFormat ↔
      MapCodec.MapDecompressor.requiredFieldsOk a = false) ∧
    (∀ (ext : MapCodec.ExternalBackends) (a : MapCodec.CompressedMapData),
      MapCodec.MapDecompressor.decompress ext {a with algorithm := Option.none} =
        MapCodec.MapDecompressor.decompress ext
          {a with algorithm := some MapCodec.Alg.brotli}) := by
  constructor
  · intro ext a
    by_cases hreq : MapCodec.MapDecompressor.requiredFieldsOk a = false
    · unfold MapCodec.MapDecompressor.decompress
      simp [hreq]
    · have hreqT : MapCodec.MapDecompressor.requiredFieldsOk a = true := by
        revert hreq
        cases MapCodec.MapDecompressor.requiredFieldsOk a <;> simp
      unfold MapCodec.MapDecompressor.decompress
      rw [hreqT]
      simp only [Bool.true_eq_false, if_false]
      constructor
      · intro hcon
        exfalso
        by_cases hflags : (MapCodec.MapDecompressor.optUseDelta a &&
            MapCodec.MapDecompressor.optUseVarint a) = true
        · rw [if_pos hflags] at hcon
          rcases hdec : MapCodec.MapDecompressor.decodeVarintDelta
              (MapCodec.BrotliWrapper.decompressFromBase64 ext (a.data.getD [])
                (a.algorithm.getD MapCodec.Alg.brotli)) a.bounds with e | l
          · rw [hdec] at hcon
            simp only at hcon
            unfold MapCodec.MapDecompressor.decodeVarintDelta at hdec
            by_cases hl : (MapCodec.BrotliWrapper.decompressFromBase64 ext
                (a.data.getD []) (a.algorithm.getD MapCodec.Alg.brotli)).length < 4
            · rw [if_pos hl] at hdec
              have he : e = MapCodec.JsErr.rangeErr := by
                injection hdec with h2
                exact h2.symm
              rw [he] at hcon
              injection hcon with h3
              simp at h3
            · rw [if_neg hl] at hdec
              simp at hdec
          · rw [hdec] at hcon
            simp at hcon
        · rw [if_neg hflags] at hcon
          by_cases hd : MapCodec.MapDecompressor.optUseDelta a = true
          · rw [if_pos hd] at hcon
            simp at hcon
          · rw [if_neg hd] at hcon
            simp at hcon
      · intro hcon
        exact hcon.elim
  · intro ext a
    rfl

/-- Witness for C8: the run [5,5,5,5,2,3] and the pure run of four 5s. -/

theorem C8_rle_roundtrip_witness :
    MapCodec.DeltaEncoder.decodeBlockIds
      (MapCodec.DeltaEncoder.encodeBlockIds [5, 5, 5, 5, 2, 3]).1
      (MapCodec.DeltaEncoder.encodeBlockIds [5, 5, 5, 5, 2, 3]).2 =
      [5, 5, 5, 5, 2, 3].map MapCodec.JNum.num ∧
    MapCodec.DeltaEncoder.encodeBlockIdsGo (List.replicate 4 (5 : Int)) = [-4, 5] ∧
    MapCodec.DeltaEncoder.encodeBlockIdsGo (List.replicate 2 (5 : Int)) =
      List.replicate 2 (5 : Int) :=
  ⟨C8_rle_roundtrip.1 [5, 5, 5, 5, 2, 3] (by decide),
    C8_rle_roundtrip.2.1 5 4 (by norm_num),
    C8_rle_roundtrip.2.2.1 5 2 (by norm_num)⟩

/-- Claim C4 counterexample: on the map with the malformed key "a,b,c",
compress does not raise any error; the record is silently mis-encoded
(all bounds become NaN, the coordinate deltas zigzag to byte 0, only the
block id 5 survives as zigzag byte 10). -/

theorem C4_counterexample :
    MapCodec.MapCompressor.compress MapCodec.idBackends
      ⟨MapCodec.Alg.none, 9, true, true⟩ ⟨[(['a', ',', 'b', ',', 'c'], 5)], true, false⟩ =
    Except.ok { data := ([1, 0, 0, 0, 0, 0, 0, 10].map Char.ofNat),
                blockTypesPresent := true,
                bounds := ⟨.nan, .nan, .nan, .nan, .nan, .nan⟩,
                version := ['1', '.', '0', '.', '0'],
                blockCount := 1 } := by
  have hw0 : ∀ (buf : List Nat) (off : Nat),
      MapCodec.MapCompressor.writeVarintLoop buf off 0 = (buf.set off 0, off + 1) := by
    intro buf off
    rw [MapCodec.MapCompressor.writeVarintLoop, dif_neg (by norm_num)]
    rfl
  have hw10 : ∀ (buf : List Nat) (off : Nat),
      MapCodec.MapCompressor.writeVarintLoop buf off 10 = (buf.set off 10, off + 1) := by
    intro buf off
    rw [MapCodec.MapCompressor.writeVarintLoop, dif_neg (by norm_num)]
    rfl
  have h1 : MapCodec.MapCompressor.calculateBounds [(['a', ',', 'b', ',', 'c'], 5)] =
      ⟨.nan, .nan, .nan, .nan, .nan, .nan⟩ := by decide
  have h2 : MapCodec.parseKey ['a', ',', 'b', ',', 'c'] = (.nan, .nan, .nan) := by decide
  have h3 : MapCodec.JNum.sub .nan .nan = .nan := rfl
  have h4 : MapCodec.JNum.sub .nan (.num 0) = .nan := rfl
  have h5 : MapCodec.JsNum.xor32 (MapCodec.JsNum.shl (MapCodec.JNum.raw .nan) 1)
      (MapCodec.JsNum.sar (MapCodec.JNum.raw .nan) 31) = 0 := by decide
  have h6 : MapCodec.JsNum.xor32 (MapCodec.JsNum.shl (MapCodec.JNum.raw (.num 5)) 1)
      (MapCodec.JsNum.sar (MapCodec.JNum.raw (.num 5)) 31) = 10 := by decide
  unfold MapCodec.MapCompressor.compress
  simp only [List.map_cons, List.map_nil, List.mergeSort_singleton, h1, h2,
    MapCodec.MapCompressor.encodeLoop, MapCodec.MapCompressor.writeVarint,
    h3, h4, h5, h6, hw0, hw10]
  rw [if_neg (by norm_num)]
  simp only [Except.ok.injEq]
  decide

/-- Claim C4 amended: compress never raises an error on malformed keys
(or at all, apart from writeUInt32LE range errors on the empty map or an
oversized record count): every non-empty map with fewer than 2^32 records
compresses to a result, malformed keys included. -/

theorem C4_amended :
    ∀ (ext : MapCodec.ExternalBackends) (opts : MapCodec.CompressionOpts)
      (m : MapCodec.MapData), 1 ≤ m.blocks.length → m.blocks.length < 4294967296 →
      ∃ r, MapCodec.MapCompressor.compress ext opts m = Except.ok r := by
  intro ext opts m h1 h2
  simp only [MapCodec.MapCompressor.compress, List.length_mergeSort, List.length_map]
  rw [if_neg (by omega)]
  exact ⟨_, rfl⟩

/-- Witness for C4 amended: the malformed single-record map itself. -/

theorem C4_amended_witness :
    ∃ r, MapCodec.MapCompressor.compress MapCodec.idBackends
      ⟨MapCodec.Alg.none, 9, true, true⟩ ⟨[(['a', ',', 'b', ',', 'c'], 5)], true, false⟩ =
      Except.ok r :=
  C4_amended MapCodec.idBackends ⟨MapCodec.Alg.none, 9, true, true⟩
    ⟨[(['a', ',', 'b', ',', 'c'], 5)], true, false⟩ (by decide) (by decide)

/-- Claim C1 counterexample: compressing the empty map raises a
RangeError (`writeUInt32LE` on the zero-length scratch buffer), so the
round trip fails for the empty map. -/

theorem C1_counterexample :
    MapCodec.MapCompressor.compress MapCodec.idBackends
      ⟨MapCodec.Alg.none, 9, true, true⟩ ⟨[], true, false⟩ =
      Except.error MapCodec.JsErr.rangeErr := by
  simp only [MapCodec.MapCompressor.compress, List.map_nil, List.mergeSort_nil]
  rw [if_pos (by norm_num)]

/-- Claim C1 (amended): the round trip holds on the delta+varint path
under the conditions the source actually requires: a non-empty map of
fewer than 2^32 records whose keys are canonical integer triples and
pairwise distinct, whose per-record deltas and ids stay within the
signed-varint-faithful range plus or minus 2^30, whose encoded payload
fits the 15-bytes-per-record scratch buffer, with
useDelta = useVarint = true, and entropy/base64 backends that invert
each other.  Decompressing the compressed artifact then returns exactly
the original records up to order. -/

theorem C1_amended :
    ∀ (ext : MapCodec.ExternalBackends) (opts : MapCodec.CompressionOpts)
      (mapData : MapCodec.MapData),
    opts.useDelta = true → opts.useVarint = true →
    1 ≤ mapData.blocks.length → mapData.blocks.length < 4294967296 →
    (∀ kv ∈ mapData.blocks, MapCodec.canonicalKey kv.1 = true) →
    (mapData.blocks.map Prod.fst).Nodup →
    MapCodec.sblocksOk (.num 0) (.num 0) (.num 0)
      (MapCodec.shiftedSorted mapData.blocks) = true →
    (MapCodec.MapCompressor.encodeLoop
      (MapCodec.writeBytesAt
        (List.replicate ((MapCodec.shiftedSorted mapData.blocks).length * 15) 0) 0
        (MapCodec.MapCompressor.toBytesLE4 (MapCodec.shiftedSorted mapData.blocks).length))
      4 (.num 0) (.num 0) (.num 0) (MapCodec.shiftedSorted mapData.blocks)).2 ≤
      (MapCodec.shiftedSorted mapData.blocks).length * 15 →
    (∀ d : List Nat, (∀ b ∈ d, b < 256) →
      MapCodec.BrotliWrapper.decompressFromBase64 ext
        (MapCodec.BrotliWrapper.compressToBase64 ext d opts.algorithm
          (if opts.level = 0 then 9 else opts.level)) opts.algorithm = d) →
    (∀ d : List Nat, d ≠ [] →
      MapCodec.BrotliWrapper.compressToBase64 ext d opts.algorithm
        (if opts.level = 0 then 9 else opts.level) ≠ []) →
    ∃ res out,
      MapCodec.MapCompressor.compress ext opts mapData = Except.ok res ∧
      MapCodec.MapDecompressor.decompress ext
        (MapCodec.MapCompressor.createCompressedMap opts res) = Except.ok out ∧
      out.blocks.Perm
        (mapData.blocks.map (fun kv => (kv.1, MapCodec.JNum.num kv.2))) := by
  intro ext opts mapData hud huv hlen1 hlen2 hkeys hnodup hok hfit hback hnonempty
  have hslen : (MapCodec.shiftedSorted mapData.blocks).length = mapData.blocks.length := by
    simp only [MapCodec.shiftedSorted, List.length_mergeSort, List.length_map]
  have hne : mapData.blocks ≠ [] := by
    intro hc
    rw [hc] at hlen1
    simp at hlen1
  obtain ⟨mx, my, mz, hmx, hmy, hmz⟩ := MapCodec.calcBounds_min_num mapData.blocks hkeys hne
  have henc := MapCodec.encodeLoop_eq (MapCodec.shiftedSorted mapData.blocks) 0 0 0
    (MapCodec.writeBytesAt
      (List.replicate ((MapCodec.shiftedSorted mapData.blocks).length * 15) 0) 0
      (MapCodec.MapCompressor.toBytesLE4 (MapCodec.shiftedSorted mapData.blocks).length))
    4 hok
  have henc1 : (MapCodec.MapCompressor.encodeLoop
      (MapCodec.writeBytesAt
        (List.replicate ((MapCodec.shiftedSorted mapData.blocks).length * 15) 0) 0
        (MapCodec.MapCompressor.toBytesLE4 (MapCodec.shiftedSorted mapData.blocks).length))
      4 (.num 0) (.num 0) (.num 0) (MapCodec.shiftedSorted mapData.blocks)).1 =
      MapCodec.writeBytesAt
        (MapCodec.writeBytesAt
          (List.replicate ((MapCodec.shiftedSorted mapData.blocks).length * 15) 0) 0
          (MapCodec.MapCompressor.toBytesLE4 (MapCodec.shiftedSorted mapData.blocks).length))
        4 (MapCodec.schunks 0 0 0 (MapCodec.shiftedSorted mapData.blocks)) := by
    rw [henc]
  have henc2 : (MapCodec.MapCompressor.encodeLoop
      (MapCodec.writeBytesAt
        (List.replicate ((MapCodec.shiftedSorted mapData.blocks).length * 15) 0) 0
        (MapCodec.MapCompressor.toBytesLE4 (MapCodec.shiftedSorted mapData.blocks).length))
      4 (.num 0) (.num 0) (.num 0) (MapCodec.shiftedSorted mapData.blocks)).2 =
      4 + (MapCodec.schunks 0 0 0 (MapCodec.shiftedSorted mapData.blocks)).length := by
    rw [henc]
  have hfit2 : 4 + (MapCodec.schunks 0 0 0 (MapCodec.shiftedSorted mapData.blocks)).length ≤
      (MapCodec.shiftedSorted mapData.blocks).length * 15 := by
    rw [henc2] at hfit
    exact hfit
  have hhdrlen : (MapCodec.MapCompressor.toBytesLE4
      (MapCodec.shiftedSorted mapData.blocks).length).length = 4 := rfl
  have hb1len : (MapCodec.writeBytesAt
      (List.replicate ((MapCodec.shiftedSorted mapData.blocks).length * 15) 0) 0
      (MapCodec.MapCompressor.toBytesLE4
        (MapCodec.shiftedSorted mapData.blocks).length)).length =
      (MapCodec.shiftedSorted mapData.blocks).length * 15 := by
    rw [MapCodec.writeBytesAt_length, List.length_replicate]
  have hED : (MapCodec.writeBytesAt
        (MapCodec.writeBytesAt
          (List.replicate ((MapCodec.shiftedSorted mapData.blocks).length * 15) 0) 0
          (MapCodec.MapCompressor.toBytesLE4 (MapCodec.shiftedSorted mapData.blocks).length))
        4 (MapCodec.schunks 0 0 0 (MapCodec.shiftedSorted mapData.blocks))).take
        (4 + (MapCodec.schunks 0 0 0 (MapCodec.shiftedSorted mapData.blocks)).length) =
      MapCodec.MapCompressor.toBytesLE4 (MapCodec.shiftedSorted mapData.blocks).length ++
        MapCodec.schunks 0 0 0 (MapCodec.shiftedSorted mapData.blocks) := by
    rw [MapCodec.writeBytesAt_take _ _ 4 (by rw [hb1len]; exact hfit2)]
    have h4 : (4 : Nat) = 0 + (MapCodec.MapCompressor.toBytesLE4
        (MapCodec.shiftedSorted mapData.blocks).length).length := by rw [hhdrlen]
    conv_lhs => rw [h4]
    rw [MapCodec.writeBytesAt_take _ _ 0 (by rw [List.length_replicate, hhdrlen]; omega)]
    simp
  have hbytes256 : ∀ b ∈ MapCodec.MapCompressor.toBytesLE4
      (MapCodec.shiftedSorted mapData.blocks).length ++
      MapCodec.schunks 0 0 0 (MapCodec.shiftedSorted mapData.blocks), b < 256 := by
    intro b hb
    rcases List.mem_append.mp hb with h | h
    · exact MapCodec.toBytesLE4_bytes _ b h
    · exact MapCodec.schunks_bytes _ 0 0 0 b h
  have hEDlen : (MapCodec.MapCompressor.toBytesLE4
      (MapCodec.shiftedSorted mapData.blocks).length ++
      MapCodec.schunks 0 0 0 (MapCodec.shiftedSorted mapData.blocks)).length =
      4 + (MapCodec.schunks 0 0 0 (MapCodec.shiftedSorted mapData.blocks)).length := by
    rw [List.length_append, hhdrlen]
  have hEDne : MapCodec.MapCompressor.toBytesLE4
      (MapCodec.shiftedSorted mapData.blocks).length ++
      MapCodec.schunks 0 0 0 (MapCodec.shiftedSorted mapData.blocks) ≠ [] := by
    intro hc
    have := congrArg List.length hc
    rw [hEDlen] at this
    simp at this
  -- the permutation of the sorted shifted blocks over the input
  have hpermS : (MapCodec.shiftedSorted mapData.blocks).Perm
      (mapData.blocks.map (fun kv =>
        MapCodec.MapCompressor.SBlock.mk
          (MapCodec.JNum.sub (MapCodec.parseKey kv.1).1
            (MapCodec.MapCompressor.calculateBounds mapData.blocks).minX)
          (MapCodec.JNum.sub (MapCodec.parseKey kv.1).2.1
            (MapCodec.MapCompressor.calculateBounds mapData.blocks).minY)
          (MapCodec.JNum.sub (MapCodec.parseKey kv.1).2.2
            (MapCodec.MapCompressor.calculateBounds mapData.blocks).minZ) kv.2)) := by
    simp only [MapCodec.shiftedSorted]
    exact List.mergeSort_perm _ _
  have hgcongr : (mapData.blocks.map (fun kv =>
        MapCodec.MapCompressor.SBlock.mk
          (MapCodec.JNum.sub (MapCodec.parseKey kv.1).1
            (MapCodec.MapCompressor.calculateBounds mapData.blocks).minX)
          (MapCodec.JNum.sub (MapCodec.parseKey kv.1).2.1
            (MapCodec.MapCompressor.calculateBounds mapData.blocks).minY)
          (MapCodec.JNum.sub (MapCodec.parseKey kv.1).2.2
            (MapCodec.MapCompressor.calculateBounds mapData.blocks).minZ) kv.2)).map
        (fun b => (MapCodec.renderKey (.num (b.x.raw + mx)) (.num (b.y.raw + my))
          (.num (b.z.raw + mz)), MapCodec.JNum.num b.id)) =
      mapData.blocks.map (fun kv => (kv.1, MapCodec.JNum.num kv.2)) := by
    rw [List.map_map]
    apply List.map_congr_left
    intro kv hkv
    obtain ⟨x, y, z, hp, hr⟩ := MapCodec.canonicalKey_spec (hkeys kv hkv)
    simp only [Function.comp, hp, hmx, hmy, hmz]
    have hsx : MapCodec.JNum.sub (.num x) (.num mx) = .num (x - mx) := rfl
    have hsy : MapCodec.JNum.sub (.num y) (.num my) = .num (y - my) := rfl
    have hsz : MapCodec.JNum.sub (.num z) (.num mz) = .num (z - mz) := rfl
    simp only [hsx, hsy, hsz, MapCodec.JNum.raw, Int.sub_add_cancel]
    rw [← hr]
  have hRECperm : ((MapCodec.shiftedSorted mapData.blocks).map
      (fun b => (MapCodec.renderKey (.num (b.x.raw + mx)) (.num (b.y.raw + my))
        (.num (b.z.raw + mz)), MapCodec.JNum.num b.id))).Perm
      (mapData.blocks.map (fun kv => (kv.1, MapCodec.JNum.num kv.2))) := by
    have := hpermS.map (fun b => (MapCodec.renderKey (.num (b.x.raw + mx))
      (.num (b.y.raw + my)) (.num (b.z.raw + mz)), MapCodec.JNum.num b.id))
    rw [hgcongr] at this
    exact this
  have hnd2 : (((MapCodec.shiftedSorted mapData.blocks).map
      (fun b => (MapCodec.renderKey (.num (b.x.raw + mx)) (.num (b.y.raw + my))
        (.num (b.z.raw + mz)), MapCodec.JNum.num b.id))).map Prod.fst).Nodup := by
    have hp2 := hRECperm.map Prod.fst
    have hfst : (mapData.blocks.map (fun kv => (kv.1, MapCodec.JNum.num kv.2))).map
        Prod.fst = mapData.blocks.map Prod.fst := by
      rw [List.map_map]
      exact List.map_congr_left (fun a _ => rfl)
    rw [hfst] at hp2
    exact hp2.nodup_iff.mpr hnodup
  have hbrec : MapCodec.MapCompressor.calculateBounds mapData.blocks =
      MapCodec.JBounds.mk (.num mx) (.num my) (.num mz)
        (MapCodec.MapCompressor.calculateBounds mapData.blocks).maxX
        (MapCodec.MapCompressor.calculateBounds mapData.blocks).maxY
        (MapCodec.MapCompressor.calculateBounds mapData.blocks).maxZ := by
    rw [← hmx, ← hmy, ← hmz]
  have hb4 : ∀ i, i < (MapCodec.schunks 0 0 0 (MapCodec.shiftedSorted mapData.blocks)).length →
      (MapCodec.MapCompressor.toBytesLE4 (MapCodec.shiftedSorted mapData.blocks).length ++
        MapCodec.schunks 0 0 0 (MapCodec.shiftedSorted mapData.blocks)).getD (4 + i) 0 =
      (MapCodec.schunks 0 0 0 (MapCodec.shiftedSorted mapData.blocks)).getD i 0 :=
    fun i _ => MapCodec.getD_hdr _ _ i
  have hdvd : MapCodec.MapDecompressor.decodeVarintDelta
      (MapCodec.MapCompressor.toBytesLE4 (MapCodec.shiftedSorted mapData.blocks).length ++
        MapCodec.schunks 0 0 0 (MapCodec.shiftedSorted mapData.blocks))
      (some (MapCodec.MapCompressor.calculateBounds mapData.blocks)) =
      Except.ok ((MapCodec.shiftedSorted mapData.blocks).map
        (fun b => (MapCodec.renderKey (.num (b.x.raw + mx)) (.num (b.y.raw + my))
          (.num (b.z.raw + mz)), MapCodec.JNum.num b.id))) := by
    simp only [MapCodec.MapDecompressor.decodeVarintDelta]
    rw [if_neg (by rw [hEDlen]; omega)]
    rw [MapCodec.readUInt32LE_hdr _ (by rw [hslen]; exact hlen2) _]
    rw [hbrec]
    rw [MapCodec.decodeGo_inv (MapCodec.shiftedSorted mapData.blocks) 0 0 0 _ 4 mx my mz
      _ _ _ hok hb4]
    rw [MapCodec.objInsertAll_nodup _ [] (by simp only [List.nil_append]; exact hnd2)]
    rw [List.nil_append]
  have hDne : MapCodec.BrotliWrapper.compressToBase64 ext
      (MapCodec.MapCompressor.toBytesLE4 (MapCodec.shiftedSorted mapData.blocks).length ++
        MapCodec.schunks 0 0 0 (MapCodec.shiftedSorted mapData.blocks)) opts.algorithm
      (if opts.level = 0 then 9 else opts.level) ≠ [] :=
    hnonempty _ hEDne
  refine ⟨_,
    ⟨(MapCodec.shiftedSorted mapData.blocks).map
      (fun b => (MapCodec.renderKey (.num (b.x.raw + mx)) (.num (b.y.raw + my))
        (.num (b.z.raw + mz)), MapCodec.JNum.num b.id)), true, true,
      ((MapCodec.shiftedSorted mapData.blocks).map
        (fun b => (MapCodec.renderKey (.num (b.x.raw + mx)) (.num (b.y.raw + my))
          (.num (b.z.raw + mz)), MapCodec.JNum.num b.id))).length⟩,
    MapCodec.compress_shape ext opts mapData hlen1 hlen2, ?_, ?_⟩
  · -- decompress the artifact
    rw [henc1, henc2, hED]
    simp only [MapCodec.MapCompressor.createCompressedMap,
      MapCodec.MapDecompressor.decompress]
    rw [if_neg (by
      simp only [MapCodec.MapDecompressor.requiredFieldsOk,
        MapCodec.MapDecompressor.strTruthy]
      simp [hDne])]
    simp only [MapCodec.MapDecompressor.optUseDelta, MapCodec.MapDecompressor.optUseVarint,
      hud, huv, Bool.and_self, if_true]
    simp only [Option.getD_some]
    rw [hback _ hbytes256]
    rw [hdvd]
  · simp only []
    exact hRECperm

/-- Witness for C1 amended: the one-record map with key "1,2,3" and id 7
round-trips through the identity backends. -/

theorem C1_amended_witness :
    ∃ res out,
      MapCodec.MapCompressor.compress MapCodec.idBackends
        ⟨MapCodec.Alg.none, 9, true, true⟩
        ⟨[(['1', ',', '2', ',', '3'], 7)], true, false⟩ = Except.ok res ∧
      MapCodec.MapDecompressor.decompress MapCodec.idBackends
        (MapCodec.MapCompressor.createCompressedMap ⟨MapCodec.Alg.none, 9, true, true⟩
          res) = Except.ok out ∧
      out.blocks.Perm ([(['1', ',', '2', ',', '3'], (7 : Int))].map
        (fun kv => (kv.1, MapCodec.JNum.num kv.2))) := by
  have hd1 : MapCodec.natDigits 1 = ['1'] := by
    rw [MapCodec.natDigits, dif_pos (by norm_num)]
    decide
  have hd2 : MapCodec.natDigits 2 = ['2'] := by
    rw [MapCodec.natDigits, dif_pos (by norm_num)]
    decide
  have hd3 : MapCodec.natDigits 3 = ['3'] := by
    rw [MapCodec.natDigits, dif_pos (by norm_num)]
    decide
  have hr : MapCodec.renderKey (.num 1) (.num 2) (.num 3) = ['1', ',', '2', ',', '3'] := by
    simp only [MapCodec.renderKey, MapCodec.render, MapCodec.renderInt]
    rw [if_neg (by norm_num), if_neg (by norm_num), if_neg (by norm_num)]
    have ht1 : (1 : Int).toNat = 1 := rfl
    have ht2 : (2 : Int).toNat = 2 := rfl
    have ht3 : (3 : Int).toNat = 3 := rfl
    rw [ht1, ht2, ht3, hd1, hd2, hd3]
    decide
  have hp : MapCodec.parseKey ['1', ',', '2', ',', '3'] = (.num 1, .num 2, .num 3) := by
    decide
  have hkeys : ∀ kv ∈ [(['1', ',', '2', ',', '3'], (7 : Int))],
      MapCodec.canonicalKey kv.1 = true := by
    intro kv hkv
    simp only [List.mem_singleton] at hkv
    subst hkv
    simp only [MapCodec.canonicalKey, hp]
    rw [hr]
    decide
  have hss : MapCodec.shiftedSorted [(['1', ',', '2', ',', '3'], (7 : Int))] =
      [⟨.num 0, .num 0, .num 0, 7⟩] := by
    simp only [MapCodec.shiftedSorted, List.map_cons, List.map_nil,
      List.mergeSort_singleton]
    decide
  have hsch : MapCodec.schunks 0 0 0
      [MapCodec.MapCompressor.SBlock.mk (.num 0) (.num 0) (.num 0) 7] = [0, 0, 0, 14] := by
    have hz0 : MapCodec.zigPat (0 - 0) = 0 := by decide
    have hz7 : MapCodec.zigPat 7 = 14 := by decide
    simp only [MapCodec.schunks, MapCodec.JNum.raw, hz0, hz7]
    rw [MapCodec.varintChunk_small (by norm_num), MapCodec.varintChunk_small (by norm_num)]
    rfl
  apply C1_amended MapCodec.idBackends ⟨MapCodec.Alg.none, 9, true, true⟩
    ⟨[(['1', ',', '2', ',', '3'], 7)], true, false⟩ rfl rfl (by norm_num) (by norm_num)
    hkeys (by decide)
  · rw [hss]
    decide
  · rw [hss]
    rw [MapCodec.encodeLoop_eq _ 0 0 0 _ 4 (by decide), hsch]
    norm_num
  · intro d hd
    simp only [MapCodec.BrotliWrapper.compressToBase64,
      MapCodec.BrotliWrapper.decompressFromBase64, MapCodec.BrotliWrapper.compress,
      MapCodec.BrotliWrapper.decompress, MapCodec.idBackends]
    exact MapCodec.map_toNat_ofNat d hd
  · intro d hd
    simp only [MapCodec.BrotliWrapper.compressToBase64,
      MapCodec.BrotliWrapper.compress, MapCodec.idBackends]
    intro hc
    exact hd (List.map_eq_nil_iff.mp hc)

